import Mathlib

/-!
# Verification of the JASPAR-SR data pipeline

Shallow embedding, in Lean 4, of the pure logic of the two scripts of the
repository (`files/get_files.py` and `models/regression.py`): dictionary and
list manipulations, the pagination loop of the JASPAR REST client, the
hard-coded override tables for faulty UniProt records, the grouping of
proteins by DNA-binding-domain (DBD) composition, the selection of
latest-version JASPAR profiles, the parsing of Tomtom result tables, the
leave-one-TF-out cross-validation iterator, and an artifact-level model of
the skip-if-output-exists control flow of the whole pipeline.

External effects (HTTP requests, subprocess invocations of HMMER / BLAST+ /
Tomtom, file IO) are modelled as oracle parameters or as abstract artifact
sets; the Python data manipulations around them are translated directly.
-/

/-! ## Leave-one-TF-out cross-validation (`models/regression.py`) -/

/-- Membership of a TF name in a TF pair: Python's `tf in tfPairs[i]`
(`regression.py` line 126), where each element of `tfPairs` is a pair of
TF names. -/
def tfInPair (tf : String) (p : String × String) : Bool :=
  tf == p.1 || tf == p.2

/-- Append an element to a list unless already present (used to model the
first-occurrence key order of a Python dict built with `setdefault`). -/
def pushNew (acc : List String) (x : String) : List String :=
  if x ∈ acc then acc else acc ++ [x]

/-- The keys of the `tfIdxs` dict in creation order (`regression.py` lines
120-123): `tfIdxs.setdefault(tf, [])` is executed for both TFs of each pair,
so the keys are the TF names in order of first occurrence. -/
def tfKeys (tfPairs : List (String × String)) : List String :=
  tfPairs.foldl (fun acc p => pushNew (pushNew acc p.1) p.2) []

/-- The `tfIdxs` dict as filled by `train_models` (`regression.py` lines
124-127): each TF key is mapped to the ascending list of indices `i` with
`tf in tfPairs[i]`. -/
def tfIdxsFrom (tfPairs : List (String × String)) : List (String × List Nat) :=
  (tfKeys tfPairs).map (fun tf =>
    (tf, (List.range tfPairs.length).filter (fun i => tfInPair tf (tfPairs.getD i ("", "")))))

/-- `_leaveOneTFOut` (`regression.py` lines 253-266): for each TF entry
`(tf, idxs)` it emits the split `(trainIdx, testIdx)` with `testIdx = idxs`
and `trainIdx = list(set(range(l)) - set(testIdx))`.  Python iterates the
set difference in unspecified order; the embedding lists it in ascending
order, and the claims about it only concern membership. -/
def _leaveOneTFOut (tfIdxs : List (String × List Nat)) (l : Nat) :
    List (List Nat × List Nat) :=
  tfIdxs.map (fun p => ((List.range l).filter (fun i => decide (i ∉ p.2)), p.2))

theorem mem_zip_map {α β : Type} (f : α → β) :
    ∀ (l : List α) (e : α × β), e ∈ List.zip l (l.map f) → e.2 = f e.1 ∧ e.1 ∈ l := by
  intro l
  induction l with
  | nil => intro e he; cases he
  | cons a t ih =>
    intro e he
    simp only [List.map, List.zip_cons_cons, List.mem_cons] at he
    cases he with
    | inl h => subst h; exact ⟨rfl, List.mem_cons_self a t⟩
    | inr h =>
      obtain ⟨h1, h2⟩ := ih e h
      exact ⟨h1, List.mem_cons_of_mem a h2⟩

/-- C1: with `tfIdxs` built from the TF pairs as in `train_models`
(`regression.py` lines 117-130) and `l` the number of pairs,
`_leaveOneTFOut` yields, for every TF key, a split `(trainIdx, testIdx)` of
`{0..l-1}` in which `testIdx` is exactly the set of indices of pairs
involving that TF and `trainIdx` is exactly its complement; the two are
disjoint and together cover all indices, and no pair involving the TF is in
the training set. -/
theorem leaveOneTFOut_correct (tfPairs : List (String × String))
    (tfIdxs : List (String × List Nat)) (l : Nat)
    (hIdx : tfIdxs = tfIdxsFrom tfPairs) (hl : l = tfPairs.length) :
    (∀ tf, (∃ p ∈ tfPairs, tfInPair tf p = true) → ∃ idxs, (tf, idxs) ∈ tfIdxs) ∧
    ∀ e ∈ List.zip tfIdxs (_leaveOneTFOut tfIdxs l),
      e.2.2 = e.1.2 ∧
      (∀ i, i ∈ e.2.2 ↔ i < l ∧ tfInPair e.1.1 (tfPairs.getD i ("", "")) = true) ∧
      (∀ i, i ∈ e.2.1 ↔ i < l ∧ ¬ tfInPair e.1.1 (tfPairs.getD i ("", "")) = true) ∧
      (∀ i, ¬ (i ∈ e.2.1 ∧ i ∈ e.2.2)) ∧
      (∀ i, i < l → i ∈ e.2.1 ∨ i ∈ e.2.2) := by
  subst hIdx hl
  constructor
  · -- every TF occurring in some pair is a key of tfIdxs
    intro tf ⟨p, hp, htf⟩
    have hkey : tf ∈ tfKeys tfPairs := by
      -- the fold adds both components of every pair
      have main : ∀ (ps : List (String × String)) (acc : List String),
          (tf ∈ acc ∨ ∃ q ∈ ps, tfInPair tf q = true) →
          tf ∈ ps.foldl (fun acc p => pushNew (pushNew acc p.1) p.2) acc := by
        intro ps
        induction ps with
        | nil =>
          intro acc h
          rcases h with h | ⟨q, hq, _⟩
          · exact h
          · cases hq
        | cons q t ih =>
          intro acc h
          simp only [List.foldl]
          apply ih
          rcases h with h | ⟨r, hr, hrt⟩
          · left
            unfold pushNew
            split <;> split <;> simp_all
          · rcases List.mem_cons.mp hr with rfl | hrt'
            · left
              unfold tfInPair at hrt
              unfold pushNew
              rcases Bool.or_eq_true_iff.mp hrt with h1 | h2
              · have : tf = r.1 := by simpa using h1
                subst this
                split <;> split <;> simp_all
              · have : tf = r.2 := by simpa using h2
                subst this
                split <;> split <;> simp_all
            · right
              exact ⟨r, hrt', hrt⟩
      exact main tfPairs [] (Or.inr ⟨p, hp, htf⟩)
    exact ⟨_, List.mem_map_of_mem _ hkey⟩
  · intro e he
    obtain ⟨hsplit, hmem⟩ := mem_zip_map _ _ e he
    obtain ⟨tf, _, hentry⟩ := List.mem_map.mp hmem
    have h1 : e.1.1 = tf := by rw [← hentry]
    have h2 : e.1.2 =
        (List.range tfPairs.length).filter
          (fun i => tfInPair tf (tfPairs.getD i ("", ""))) := by rw [← hentry]
    have hTest : ∀ i, i ∈ e.2.2 ↔
        i < tfPairs.length ∧ tfInPair e.1.1 (tfPairs.getD i ("", "")) = true := by
      intro i
      rw [hsplit, h1]
      show i ∈ e.1.2 ↔ _
      rw [h2, List.mem_filter, List.mem_range]
    have hTrain : ∀ i, i ∈ e.2.1 ↔ i < tfPairs.length ∧ ¬ i ∈ e.2.2 := by
      intro i
      rw [hsplit]
      show i ∈ List.filter _ _ ↔ _ ∧ ¬ i ∈ e.1.2
      rw [List.mem_filter, List.mem_range]
      simp only [decide_eq_true_eq]
    refine ⟨by rw [hsplit], hTest, ?_, ?_, ?_⟩
    · intro i
      rw [hTrain i]
      constructor
      · rintro ⟨hi, hn⟩
        exact ⟨hi, fun hp => hn ((hTest i).mpr ⟨hi, hp⟩)⟩
      · rintro ⟨hi, hn⟩
        exact ⟨hi, fun hm => hn ((hTest i).mp hm).2⟩
    · intro i ⟨ha, hb⟩
      exact ((hTrain i).mp ha).2 hb
    · intro i hi
      by_cases hc : i ∈ e.2.2
      · exact Or.inr hc
      · exact Or.inl ((hTrain i).mpr ⟨hi, hc⟩)

/-- Witness for C1 at a concrete input: two TF pairs, three TFs. -/
theorem leaveOneTFOut_correct_witness :
    ([("A", [0, 1]), ("B", [0]), ("C", [1])] =
      tfIdxsFrom [("A", "B"), ("C", "A")] ∧ 2 = [("A", "B"), ("C", "A")].length) ∧
    ((∀ tf, (∃ p ∈ [("A", "B"), ("C", "A")], tfInPair tf p = true) →
        ∃ idxs, (tf, idxs) ∈ [("A", [0, 1]), ("B", [0]), ("C", [1])]) ∧
      ∀ e ∈ List.zip [("A", [0, 1]), ("B", [0]), ("C", [1])]
          (_leaveOneTFOut [("A", [0, 1]), ("B", [0]), ("C", [1])] 2),
        e.2.2 = e.1.2 ∧
        (∀ i, i ∈ e.2.2 ↔ i < 2 ∧
          tfInPair e.1.1 ([("A", "B"), ("C", "A")].getD i ("", "")) = true) ∧
        (∀ i, i ∈ e.2.1 ↔ i < 2 ∧
          ¬ tfInPair e.1.1 ([("A", "B"), ("C", "A")].getD i ("", "")) = true) ∧
        (∀ i, ¬ (i ∈ e.2.1 ∧ i ∈ e.2.2)) ∧
        (∀ i, i < 2 → i ∈ e.2.1 ∨ i ∈ e.2.2)) :=
  ⟨⟨by decide, by decide⟩,
    leaveOneTFOut_correct [("A", "B"), ("C", "A")]
      [("A", [0, 1]), ("B", [0]), ("C", [1])] 2 (by decide) (by decide)⟩

/-! ## Python string ordering (`sorted`) -/

/-- Python string `<`: strict lexicographic order on code points, on the
underlying character lists. -/
def lexLt : List Char → List Char → Bool
  | _, [] => false
  | [], _ :: _ => true
  | a :: as, b :: bs => if a < b then true else if a = b then lexLt as bs else false

theorem lexLt_irrefl : ∀ l, lexLt l l = false
  | [] => rfl
  | a :: as => by simp [lexLt, lexLt_irrefl as]

theorem lexLt_asymm : ∀ a b, lexLt a b = true → lexLt b a = false
  | [], [], h => by simp [lexLt] at h
  | [], _ :: _, _ => rfl
  | _ :: _, [], h => by simp [lexLt] at h
  | x :: xs, y :: ys, h => by
    unfold lexLt at h ⊢
    by_cases hxy : x < y
    · simp [lt_asymm hxy, ne_of_gt hxy]
    · by_cases heq : x = y
      · subst heq
        simp only [lt_irrefl, if_false, if_pos rfl] at h ⊢
        exact lexLt_asymm xs ys h
      · simp [hxy, heq] at h

theorem lexLt_ge_trans : ∀ a b c, lexLt a b = false → lexLt b c = false → lexLt a c = false
  | a, _, [] => fun _ _ => by cases a <;> simp [lexLt]
  | _, [], _ :: _ => fun _ h2 => by simp [lexLt] at h2
  | [], _ :: _, _ :: _ => fun h1 _ => by simp [lexLt] at h1
  | x :: xs, y :: ys, z :: zs => fun h1 h2 => by
    unfold lexLt at h1 h2 ⊢
    by_cases h1lt : x < y
    · simp [h1lt] at h1
    · by_cases h2lt : y < z
      · simp [h2lt] at h2
      · have hyx : y ≤ x := le_of_not_lt h1lt
        have hzy : z ≤ y := le_of_not_lt h2lt
        by_cases hxz : x < z
        · exact absurd hxz (not_lt.mpr (le_trans hzy hyx))
        · by_cases hxez : x = z
          · have hxy : x = y := le_antisymm (by rw [hxez]; exact hzy) hyx
            subst hxy
            have hyz : x = z := hxez
            subst hyz
            simp only [lt_irrefl, if_false, if_pos rfl] at h1 h2 ⊢
            exact lexLt_ge_trans xs ys zs h1 h2
          · simp [hxz, hxez]

/-- `a` may precede `b` in Python `sorted(..., reverse=True)` order:
`¬ (a < b)`, i.e. `a ≥ b` in code-point lexicographic order. -/
def descGe (a b : String) : Prop := lexLt a.data b.data = false

/-- `a` may precede `b` in Python `sorted(...)` (ascending) order:
`¬ (b < a)`, i.e. `a ≤ b` in code-point lexicographic order. -/
def ascLe (a b : String) : Prop := lexLt b.data a.data = false

instance : DecidableRel descGe := fun a b =>
  inferInstanceAs (Decidable (lexLt a.data b.data = false))

instance : DecidableRel ascLe := fun a b =>
  inferInstanceAs (Decidable (lexLt b.data a.data = false))

instance : IsTotal String descGe where
  total a b := by
    unfold descGe
    cases h : lexLt a.data b.data with
    | false => exact Or.inl rfl
    | true => exact Or.inr (lexLt_asymm _ _ h)

instance : IsTrans String descGe where
  trans _ _ _ h1 h2 := lexLt_ge_trans _ _ _ h1 h2

instance : IsTotal String ascLe where
  total a b := by
    unfold ascLe
    cases h : lexLt b.data a.data with
    | false => exact Or.inl rfl
    | true => exact Or.inr (lexLt_asymm _ _ h)

instance : IsTrans String ascLe where
  trans _ _ _ h1 h2 := lexLt_ge_trans _ _ _ h2 h1

/-- Python `sorted(l)` on strings (stable, ascending). -/
def pySorted (l : List String) : List String := List.insertionSort ascLe l

/-- Python `sorted(l, reverse=True)` on strings (stable, descending). -/
def pySortedDesc (l : List String) : List String := List.insertionSort descGe l

/-! ## Latest-version JASPAR profiles (`_get_profiles_from_latest_version`) -/

/-- Attempt to match the regex `(MA\d{4}).\d.\S+$` (`get_files.py` line 682)
at the start of the character list: `MA`, four digits, one arbitrary
non-newline character, one digit (the profile version), one arbitrary
non-newline character, then at least one non-whitespace character running to
the end of the string.  Returns the capture group (`MA` plus the four
digits) together with the version digit matched by the `\d`. -/
def baseIdVerAt : List Char → Option (List Char × Char)
  | 'M' :: 'A' :: d1 :: d2 :: d3 :: d4 :: c1 :: d5 :: c2 :: rest =>
    if d1.isDigit && d2.isDigit && d3.isDigit && d4.isDigit && d5.isDigit
        && c1 != '\n' && c2 != '\n'
        && !rest.isEmpty && rest.all (fun c => !c.isWhitespace) then
      some (['M', 'A', d1, d2, d3, d4], d5)
    else none
  | _ => none

/-- `re.search` for the pattern above: try every start position from the
left and return the first match. -/
def searchBaseIdVer : List Char → Option (List Char × Char)
  | [] => none
  | c :: cs => (baseIdVerAt (c :: cs)).orElse (fun _ => searchBaseIdVer cs)

/-- `m.group(1)` of `re.search("(MA\d{4}).\d.\S+$", path)`: the base matrix
ID `MAxxxx`; `none` when the search fails (Python would raise an
AttributeError on `m.group`). -/
def extractBaseId (s : String) : Option String :=
  (searchBaseIdVer s.data).map (fun r => String.mk r.1)

/-- The profile version digit matched by the `\d` of the same regex. -/
def extractVersionChar (s : String) : Option Char :=
  (searchBaseIdVer s.data).map (fun r => r.2)

/-- The scan of `_get_profiles_from_latest_version` (`get_files.py` lines
679-693) over the descending-sorted profile paths, with `done` the set of
base matrix IDs already seen: the first path carrying each base ID is kept.
`none` models the AttributeError raised when the regex does not match. -/
def lovGo : List String → List String → Option (List String)
  | [], _ => some []
  | p :: ps, done =>
    match extractBaseId p with
    | none => none
    | some mid =>
      if mid ∈ done then lovGo ps done
      else (lovGo ps (mid :: done)).map (fun out => p :: out)

/-- `_get_profiles_from_latest_version` (`get_files.py` lines 672-695):
sort the paths in reverse and keep the first path for each base matrix ID. -/
def _get_profiles_from_latest_version (jaspar_profiles : List String) :
    Option (List String) :=
  lovGo (pySortedDesc jaspar_profiles) []

theorem lovGo_spec : ∀ (l : List String) (done : List String),
    (∀ p ∈ l, (extractBaseId p).isSome) →
    List.Pairwise descGe l →
    ∃ out, lovGo l done = some out ∧
      (∀ p ∈ out, p ∈ l) ∧
      (∀ p ∈ out, ∀ m, extractBaseId p = some m → m ∉ done) ∧
      List.Pairwise (fun p q => extractBaseId p ≠ extractBaseId q) out ∧
      (∀ p ∈ l, ∀ m, extractBaseId p = some m →
        m ∈ done ∨ ∃ q ∈ out, extractBaseId q = some m) ∧
      (∀ q ∈ out, ∀ p ∈ l, extractBaseId p = extractBaseId q →
        lexLt q.data p.data = false) := by
  intro l
  induction l with
  | nil =>
    intro done _ _
    exact ⟨[], rfl, by simp, by simp, by simp, by simp, by simp⟩
  | cons p ps ih =>
    intro done hsome hpw
    obtain ⟨mid, hmid⟩ := Option.isSome_iff_exists.mp (hsome p (List.mem_cons_self p ps))
    have hhead : ∀ q ∈ ps, descGe p q := (List.pairwise_cons.mp hpw).1
    have htail : List.Pairwise descGe ps := (List.pairwise_cons.mp hpw).2
    have hsome' : ∀ q ∈ ps, (extractBaseId q).isSome :=
      fun q hq => hsome q (List.mem_cons_of_mem p hq)
    by_cases hdone : mid ∈ done
    · obtain ⟨out, hout, hsub, hnew, hpwo, hcov, hmax⟩ := ih done hsome' htail
      refine ⟨out, ?_, ?_, ?_, hpwo, ?_, ?_⟩
      · simp [lovGo, hmid, hdone, hout]
      · exact fun q hq => List.mem_cons_of_mem p (hsub q hq)
      · exact hnew
      · intro r hr m hm
        rcases List.mem_cons.mp hr with rfl | hr'
        · rw [hmid] at hm
          exact Or.inl (by rwa [← Option.some_inj.mp hm])
        · exact hcov r hr' m hm
      · intro q hq r hr heq
        rcases List.mem_cons.mp hr with rfl | hr'
        · -- r = p: extract q = some mid, but q is untouched by done
          rw [hmid] at heq
          exact absurd hdone (by simpa using hnew q hq mid heq.symm)
        · exact hmax q hq r hr' heq
    · obtain ⟨out, hout, hsub, hnew, hpwo, hcov, hmax⟩ := ih (mid :: done) hsome' htail
      refine ⟨p :: out, ?_, ?_, ?_, ?_, ?_, ?_⟩
      · simp [lovGo, hmid, hdone, hout]
      · intro q hq
        rcases List.mem_cons.mp hq with rfl | hq'
        · exact List.mem_cons_self q ps
        · exact List.mem_cons_of_mem p (hsub q hq')
      · intro q hq m hm
        rcases List.mem_cons.mp hq with rfl | hq'
        · rw [hmid] at hm
          rwa [← Option.some_inj.mp hm]
        · have := hnew q hq' m hm
          exact fun hc => this (List.mem_cons_of_mem mid hc)
      · refine List.pairwise_cons.mpr ⟨?_, hpwo⟩
        intro q hq
        rw [hmid]
        intro hc
        have := hnew q hq mid hc.symm
        exact this (List.mem_cons_self mid done)
      · intro r hr m hm
        rcases List.mem_cons.mp hr with rfl | hr'
        · rw [hmid] at hm
          exact Or.inr ⟨r, List.mem_cons_self r out,
            by rw [hmid, Option.some_inj.mp hm]⟩
        · rcases hcov r hr' m hm with hmem | ⟨q, hq, hq2⟩
          · rcases List.mem_cons.mp hmem with rfl | hmem'
            · exact Or.inr ⟨p, List.mem_cons_self p out, hmid⟩
            · exact Or.inl hmem'
          · exact Or.inr ⟨q, List.mem_cons_of_mem p hq, hq2⟩
      · intro q hq r hr heq
        rcases List.mem_cons.mp hq with rfl | hq'
        · -- q = p is the first (hence largest) path with this base ID
          rcases List.mem_cons.mp hr with rfl | hr'
          · exact lexLt_irrefl _
          · exact hhead r hr'
        · rcases List.mem_cons.mp hr with rfl | hr'
          · -- r = p would share p's base ID with q ∈ out, impossible
            rw [hmid] at heq
            have := hnew q hq' mid heq.symm
            exact absurd (List.mem_cons_self mid done) this
          · exact hmax q hq' r hr' heq

/-- C9 (amended): on any input whose paths all match the regex,
`_get_profiles_from_latest_version` succeeds and returns a sublist of the
input in which no two paths share a base matrix ID, every base matrix ID of
the input is represented, and each returned path is lexicographically
greatest (in Python string order over the whole path) among the input paths
sharing its base matrix ID. -/
theorem get_profiles_from_latest_version_spec (jaspar_profiles : List String)
    (h : ∀ p ∈ jaspar_profiles, (extractBaseId p).isSome) :
    ∃ out, _get_profiles_from_latest_version jaspar_profiles = some out ∧
      (∀ p ∈ out, p ∈ jaspar_profiles) ∧
      List.Pairwise (fun p q => extractBaseId p ≠ extractBaseId q) out ∧
      (∀ p ∈ jaspar_profiles, ∃ q ∈ out, extractBaseId q = extractBaseId p) ∧
      (∀ q ∈ out, ∀ p ∈ jaspar_profiles, extractBaseId p = extractBaseId q →
        lexLt q.data p.data = false) := by
  have hperm := List.perm_insertionSort descGe jaspar_profiles
  have hsorted : List.Pairwise descGe (pySortedDesc jaspar_profiles) :=
    List.sorted_insertionSort descGe jaspar_profiles
  have hsome : ∀ p ∈ pySortedDesc jaspar_profiles, (extractBaseId p).isSome :=
    fun p hp => h p (hperm.mem_iff.mp hp)
  obtain ⟨out, hout, hsub, _, hpwo, hcov, hmax⟩ :=
    lovGo_spec (pySortedDesc jaspar_profiles) [] hsome hsorted
  refine ⟨out, hout, ?_, hpwo, ?_, ?_⟩
  · exact fun p hp => hperm.mem_iff.mp (hsub p hp)
  · intro p hp
    have hp' : p ∈ pySortedDesc jaspar_profiles := hperm.mem_iff.mpr hp
    obtain ⟨m, hm⟩ := Option.isSome_iff_exists.mp (h p hp)
    rcases hcov p hp' m hm with hmem | ⟨q, hq, hq2⟩
    · cases hmem
    · exact ⟨q, hq, by rw [hq2, hm]⟩
  · intro q hq p hp heq
    exact hmax q hq p (hperm.mem_iff.mpr hp) heq

/-- C9 counterexample: the two paths carry the same base matrix ID
`MA0001`, the input contains version 2, yet the function returns the path
with version 1 because the directory prefix dominates the Python string
order — the lexicographically greatest path is not the highest version. -/
theorem get_profiles_from_latest_version_counterexample :
    _get_profiles_from_latest_version ["a/MA0001.2.meme", "b/MA0001.1.meme"]
      = some ["b/MA0001.1.meme"] ∧
    extractBaseId "b/MA0001.1.meme" = extractBaseId "a/MA0001.2.meme" ∧
    extractVersionChar "b/MA0001.1.meme" = some '1' ∧
    extractVersionChar "a/MA0001.2.meme" = some '2' := by decide

/-- Witness for the amended C9 at a concrete input. -/
theorem get_profiles_from_latest_version_spec_witness :
    (∀ p ∈ ["x/MA0001.1.meme", "x/MA0001.2.meme"], (extractBaseId p).isSome) ∧
    (∃ out, _get_profiles_from_latest_version ["x/MA0001.1.meme", "x/MA0001.2.meme"]
        = some out ∧
      (∀ p ∈ out, p ∈ ["x/MA0001.1.meme", "x/MA0001.2.meme"]) ∧
      List.Pairwise (fun p q => extractBaseId p ≠ extractBaseId q) out ∧
      (∀ p ∈ ["x/MA0001.1.meme", "x/MA0001.2.meme"],
        ∃ q ∈ out, extractBaseId q = extractBaseId p) ∧
      (∀ q ∈ out, ∀ p ∈ ["x/MA0001.1.meme", "x/MA0001.2.meme"],
        extractBaseId p = extractBaseId q → lexLt q.data p.data = false)) :=
  ⟨by decide,
    get_profiles_from_latest_version_spec ["x/MA0001.1.meme", "x/MA0001.2.meme"]
      (by decide)⟩

/-! ## Grouping by Tomtom similarity (`_group_by_Tomtom`) -/

/-- Attempt to match the regex `(MA\d{4}.\d).meme$` (`get_files.py` line
616) at the start of the character list: `MA`, four digits, one arbitrary
non-newline character, a digit, one arbitrary non-newline character, then
the literal `meme` at the end of the string; the capture group is the first
eight characters (the versioned matrix ID). -/
def versionedIdAt : List Char → Option (List Char)
  | 'M' :: 'A' :: d1 :: d2 :: d3 :: d4 :: c1 :: d5 :: c2 :: 'm' :: 'e' :: 'm' :: 'e' :: [] =>
    if d1.isDigit && d2.isDigit && d3.isDigit && d4.isDigit && d5.isDigit
        && c1 != '\n' && c2 != '\n' then
      some ['M', 'A', d1, d2, d3, d4, c1, d5]
    else none
  | _ => none

/-- `re.search` for the pattern above: try every start position from the
left and return the first match. -/
def searchVersionedId : List Char → Option (List Char)
  | [] => none
  | c :: cs => (versionedIdAt (c :: cs)).orElse (fun _ => searchVersionedId cs)

/-- `m.group(1)` of `re.search("(MA\d{4}.\d).meme$", path)`: the versioned
matrix ID `MAxxxx.v`; `none` when the search fails. -/
def extractVersionedId (s : String) : Option String :=
  (searchVersionedId s.data).map String.mk

/-- The dictionary-building loop of `_group_by_Tomtom` (`get_files.py`
lines 612-623) over the query profiles, with `hits` the oracle mapping a
query's versioned matrix ID to the hits collected by `_get_Tomtom_hits`
from that query's Tomtom output directory `.MAxxxx.v`. -/
def tomtomFold {α : Type} (hits : String → List α) :
    List String → List (String × List α) → Option (List (String × List α))
  | [], tomtom => some tomtom
  | q :: qs, tomtom =>
    match extractVersionedId q with
    | none => none
    | some mid =>
      tomtomFold hits qs
        (if tomtom.any (fun e => e.1 == mid) then tomtom else tomtom ++ [(mid, hits mid)])

/-- `_group_by_Tomtom` (`get_files.py` lines 576-645), modelled at the
level of the `tomtom` dictionary it writes into `groups.tomtom.json.gz`:
`memeGlob` is the glob of `*/*.meme` files under the output directory, from
which only the latest-version profiles are retained as Tomtom queries; each
query is entered via `setdefault` keyed by the versioned matrix ID from the
regex `(MA\d{4}.\d).meme$`.  The runs of the external `tomtom` binary are
summarised by the `hits` oracle, and `none` models the AttributeError
raised when a regex fails to match. -/
def _group_by_Tomtom {α : Type} (memeGlob : List String) (hits : String → List α) :
    Option (List (String × List α)) :=
  match _get_profiles_from_latest_version memeGlob with
  | none => none
  | some queries => tomtomFold hits queries []

theorem tomtomFold_spec {α : Type} (hits : String → List α) :
    ∀ (qs : List String) (acc : List (String × List α)),
    (∀ q ∈ qs, (extractVersionedId q).isSome) →
    (∀ e ∈ acc, e.2 = hits e.1) →
    ∃ final, tomtomFold hits qs acc = some final ∧
      (∀ e ∈ acc, e ∈ final) ∧
      (∀ e ∈ final, e.2 = hits e.1 ∧
        (e ∈ acc ∨ ∃ q ∈ qs, extractVersionedId q = some e.1)) ∧
      (∀ q ∈ qs, ∀ mid, extractVersionedId q = some mid → (mid, hits mid) ∈ final) := by
  intro qs
  induction qs with
  | nil =>
    intro acc _ hinv
    exact ⟨acc, rfl, fun e he => he, fun e he => ⟨hinv e he, Or.inl he⟩,
      fun q hq => absurd hq (List.not_mem_nil q)⟩
  | cons q qs ih =>
    intro acc hsome hinv
    obtain ⟨mid, hmid⟩ := Option.isSome_iff_exists.mp (hsome q (List.mem_cons_self q qs))
    have hsome' : ∀ r ∈ qs, (extractVersionedId r).isSome :=
      fun r hr => hsome r (List.mem_cons_of_mem q hr)
    by_cases hin : acc.any (fun e => e.1 == mid)
    · obtain ⟨final, hfin, hacc, hdom, hhit⟩ := ih acc hsome' hinv
      refine ⟨final, by simp [tomtomFold, hmid, hin, hfin], hacc, ?_, ?_⟩
      · intro e he
        obtain ⟨h1, h2⟩ := hdom e he
        refine ⟨h1, ?_⟩
        rcases h2 with h2 | ⟨r, hr, hr2⟩
        · exact Or.inl h2
        · exact Or.inr ⟨r, List.mem_cons_of_mem q hr, hr2⟩
      · intro r hr m hm
        rcases List.mem_cons.mp hr with rfl | hr'
        · -- the key is already in acc; by the invariant its value is hits m
          rw [hmid] at hm
          obtain ⟨e, he, hekey⟩ := List.any_eq_true.mp hin
          have hkey : e.1 = mid := by simpa using hekey
          have : e = (m, hits m) := by
            have h2 := hinv e he
            have h3 : e.1 = m := by rw [hkey, ← Option.some_inj.mp hm]
            calc e = (e.1, e.2) := rfl
            _ = (m, hits m) := by rw [h3, h2, h3]
          exact this ▸ hacc e he
        · exact hhit r hr' m hm
    · have hinv' : ∀ e ∈ acc ++ [(mid, hits mid)], e.2 = hits e.1 := by
        intro e he
        rcases List.mem_append.mp he with he' | he'
        · exact hinv e he'
        · simp at he'
          rw [he']
      obtain ⟨final, hfin, hacc, hdom, hhit⟩ := ih (acc ++ [(mid, hits mid)]) hsome' hinv'
      refine ⟨final, by simp [tomtomFold, hmid, hin, hfin], ?_, ?_, ?_⟩
      · exact fun e he => hacc e (List.mem_append.mpr (Or.inl he))
      · intro e he
        obtain ⟨h1, h2⟩ := hdom e he
        refine ⟨h1, ?_⟩
        rcases h2 with h2 | ⟨r, hr, hr2⟩
        · rcases List.mem_append.mp h2 with h2' | h2'
          · exact Or.inl h2'
          · simp at h2'
            exact Or.inr ⟨q, List.mem_cons_self q qs, by rw [hmid, h2']⟩
        · exact Or.inr ⟨r, List.mem_cons_of_mem q hr, hr2⟩
      · intro r hr m hm
        rcases List.mem_cons.mp hr with rfl | hr'
        · rw [hmid] at hm
          rw [← Option.some_inj.mp hm]
          exact hacc _ (List.mem_append.mpr (Or.inr (List.mem_cons_self _ [])))
        · exact hhit r hr' m hm

/-- C4 (amended): the Tomtom grouping stage compares only the
latest-version profile of each base matrix ID as a query; for every such
query the collected hits are recorded keyed by the query's versioned matrix
ID, and every recorded entry comes from such a query. -/
theorem group_by_Tomtom_spec {α : Type} (memeGlob : List String)
    (hits : String → List α)
    (hbase : ∀ p ∈ memeGlob, (extractBaseId p).isSome)
    (hver : ∀ p ∈ memeGlob, (extractVersionedId p).isSome) :
    ∃ queries result,
      _get_profiles_from_latest_version memeGlob = some queries ∧
      _group_by_Tomtom memeGlob hits = some result ∧
      (∀ q ∈ queries, ∀ mid, extractVersionedId q = some mid →
        (mid, hits mid) ∈ result) ∧
      (∀ e ∈ result, e.2 = hits e.1 ∧
        ∃ q ∈ queries, extractVersionedId q = some e.1) := by
  obtain ⟨queries, hq, hsub, _, _, _⟩ :=
    get_profiles_from_latest_version_spec memeGlob hbase
  have hver' : ∀ q ∈ queries, (extractVersionedId q).isSome :=
    fun q hqm => hver q (hsub q hqm)
  obtain ⟨final, hfin, _, hdom, hhit⟩ := tomtomFold_spec hits queries [] hver' (by simp)
  refine ⟨queries, final, hq, ?_, hhit, ?_⟩
  · unfold _group_by_Tomtom
    rw [hq]
    exact hfin
  · intro e he
    obtain ⟨h1, h2⟩ := hdom e he
    rcases h2 with h2 | h2
    · cases h2
    · exact ⟨h1, h2⟩

/-- C4 counterexample: with both versions of `MA0001` present under the
output directory, only the latest version is run as a Tomtom query, so the
profile `x/MA0001.1.meme` is never compared and `MA0001.1` never becomes a
key of the recorded dictionary — refuting "every profile present under the
output directory is compared as a query". -/
theorem group_by_Tomtom_counterexample :
    _get_profiles_from_latest_version ["x/MA0001.1.meme", "x/MA0001.2.meme"]
      = some ["x/MA0001.2.meme"] ∧
    _group_by_Tomtom ["x/MA0001.1.meme", "x/MA0001.2.meme"]
        (fun _ => ([] : List Nat))
      = some [("MA0001.2", [])] := by decide

/-- Witness for the amended C4 at a concrete input. -/
theorem group_by_Tomtom_spec_witness :
    ((∀ p ∈ ["x/MA0001.1.meme", "y/MA0002.1.meme"], (extractBaseId p).isSome) ∧
      (∀ p ∈ ["x/MA0001.1.meme", "y/MA0002.1.meme"], (extractVersionedId p).isSome)) ∧
    (∃ queries result,
      _get_profiles_from_latest_version ["x/MA0001.1.meme", "y/MA0002.1.meme"]
        = some queries ∧
      _group_by_Tomtom ["x/MA0001.1.meme", "y/MA0002.1.meme"]
          (fun mid => [mid]) = some result ∧
      (∀ q ∈ queries, ∀ mid, extractVersionedId q = some mid →
        (mid, [mid]) ∈ result) ∧
      (∀ e ∈ result, e.2 = [e.1] ∧
        ∃ q ∈ queries, extractVersionedId q = some e.1)) :=
  ⟨⟨by decide, by decide⟩,
    group_by_Tomtom_spec ["x/MA0001.1.meme", "y/MA0002.1.meme"]
      (fun mid => [mid]) (by decide) (by decide)⟩

/-! ## Tomtom hit parsing (`_get_Tomtom_hits`) -/

/-- Python `s.startswith("#")`. -/
def startsWithHash (s : String) : Bool :=
  match s.data with
  | [] => false
  | c :: _ => c == '#'

/-- Python `s[:6]` (clamping slice). -/
def take6 (s : String) : String := String.mk (s.data.take 6)

/-- One row of `tomtom.tsv` as handled by `_get_Tomtom_hits`
(`get_files.py` lines 697-720): comment rows (first field starting with
`#`) and the header row (`Query_ID`) are skipped, rows whose query
(field 0) and target (field 1) share their first six characters are skipped
as self comparisons between versions of the same matrix, and otherwise the
pair `[line[1], float(line[4])]` is collected.  Python's `float` is
abstracted by the `pyfloat` oracle; the outer `none` models the IndexError
raised when a required field is missing, the inner `none` a skipped row. -/
def hitOfRow {α : Type} (pyfloat : String → α) (row : List String) :
    Option (Option (String × α)) :=
  match row with
  | [] => none
  | c0 :: rest =>
    if startsWithHash c0 then some none
    else if c0 == "Query_ID" then some none
    else
      match rest with
      | [] => none
      | c1 :: _ =>
        if take6 c0 == take6 c1 then some none
        else
          match row.get? 4 with
          | none => none
          | some c4 => some (some (c1, pyfloat c4))

/-- `_get_Tomtom_hits` (`get_files.py` lines 697-720) over the rows of the
parsed `tomtom.tsv` table, accumulating the kept `[target, E-value]` pairs
in row order. -/
def _get_Tomtom_hits {α : Type} (pyfloat : String → α) :
    List (List String) → Option (List (String × α))
  | [] => some []
  | row :: rows =>
    match hitOfRow pyfloat row with
    | none => none
    | some none => _get_Tomtom_hits pyfloat rows
    | some (some h) => (_get_Tomtom_hits pyfloat rows).map (fun hs => h :: hs)

/-- C10: on a well-formed Tomtom table (every row has at least the five
fields through the E-value column), `_get_Tomtom_hits` succeeds, and every
collected hit comes from a non-comment, non-header row as the pair
`[target_id, E-value]` of that row, with the row's target differing from
its query in the first six characters (the base matrix ID), so
self-comparisons between versions of the same matrix are never
collected. -/
theorem get_Tomtom_hits_sound {α : Type} (pyfloat : String → α)
    (rows : List (List String)) (hlen : ∀ row ∈ rows, 5 ≤ row.length) :
    ∃ hits, _get_Tomtom_hits pyfloat rows = some hits ∧
      ∀ h ∈ hits, ∃ row ∈ rows,
        startsWithHash (row.getD 0 "") = false ∧
        row.getD 0 "" ≠ "Query_ID" ∧
        take6 (row.getD 0 "") ≠ take6 (row.getD 1 "") ∧
        h = (row.getD 1 "", pyfloat (row.getD 4 "")) := by
  induction rows with
  | nil => exact ⟨[], rfl, by simp⟩
  | cons row rows ih =>
    have hrow : 5 ≤ row.length := hlen row (List.mem_cons_self row rows)
    obtain ⟨hits, hh, hprop⟩ := ih (fun r hr => hlen r (List.mem_cons_of_mem row hr))
    rcases row with _ | ⟨c0, _ | ⟨c1, _ | ⟨c2, _ | ⟨c3, _ | ⟨c4, rest⟩⟩⟩⟩⟩ <;>
      simp only [List.length] at hrow <;> try omega
    by_cases h0 : startsWithHash c0 = true
    · refine ⟨hits, ?_, ?_⟩
      · simp [_get_Tomtom_hits, hitOfRow, h0, hh]
      · intro h hhit
        obtain ⟨r, hr, hrp⟩ := hprop h hhit
        exact ⟨r, List.mem_cons_of_mem _ hr, hrp⟩
    · by_cases hq : c0 = "Query_ID"
      · refine ⟨hits, ?_, ?_⟩
        · simp [_get_Tomtom_hits, hitOfRow, h0, hq, hh]
        · intro h hhit
          obtain ⟨r, hr, hrp⟩ := hprop h hhit
          exact ⟨r, List.mem_cons_of_mem _ hr, hrp⟩
      · by_cases hp : take6 c0 = take6 c1
        · refine ⟨hits, ?_, ?_⟩
          · simp [_get_Tomtom_hits, hitOfRow, h0, hq, hp, hh]
          · intro h hhit
            obtain ⟨r, hr, hrp⟩ := hprop h hhit
            exact ⟨r, List.mem_cons_of_mem _ hr, hrp⟩
        · refine ⟨(c1, pyfloat c4) :: hits, ?_, ?_⟩
          · simp [_get_Tomtom_hits, hitOfRow, h0, hq, hp, hh, List.get?]
          · intro h hhit
            rcases List.mem_cons.mp hhit with rfl | hhit'
            · refine ⟨c0 :: c1 :: c2 :: c3 :: c4 :: rest, List.mem_cons_self _ _, ?_⟩
              simp only [List.getD, List.get?]
              exact ⟨by simpa using h0, hq, hp, rfl⟩
            · obtain ⟨r, hr, hrp⟩ := hprop h hhit'
              exact ⟨r, List.mem_cons_of_mem _ hr, hrp⟩

/-- Witness for C10 at a concrete table: a comment row, the header, a
self-comparison row, and one genuine hit. -/
theorem get_Tomtom_hits_sound_witness :
    (∀ row ∈ [["# comment", "x", "x", "x", "x"],
        ["Query_ID", "Target_ID", "Optimal_offset", "p-value", "E-value"],
        ["MA0001.1", "MA0001.2", "0", "0.5", "1.0"],
        ["MA0001.1", "MA0002.1", "0", "0.001", "0.02"]], 5 ≤ row.length) ∧
    (∃ hits, _get_Tomtom_hits (fun s => s)
        [["# comment", "x", "x", "x", "x"],
         ["Query_ID", "Target_ID", "Optimal_offset", "p-value", "E-value"],
         ["MA0001.1", "MA0001.2", "0", "0.5", "1.0"],
         ["MA0001.1", "MA0002.1", "0", "0.001", "0.02"]] = some hits ∧
      ∀ h ∈ hits, ∃ row ∈ [["# comment", "x", "x", "x", "x"],
          ["Query_ID", "Target_ID", "Optimal_offset", "p-value", "E-value"],
          ["MA0001.1", "MA0001.2", "0", "0.5", "1.0"],
          ["MA0001.1", "MA0002.1", "0", "0.001", "0.02"]],
        startsWithHash (row.getD 0 "") = false ∧
        row.getD 0 "" ≠ "Query_ID" ∧
        take6 (row.getD 0 "") ≠ take6 (row.getD 1 "") ∧
        h = (row.getD 1 "", row.getD 4 "")) :=
  ⟨by decide,
    get_Tomtom_hits_sound (fun s => s)
      [["# comment", "x", "x", "x", "x"],
       ["Query_ID", "Target_ID", "Optimal_offset", "p-value", "E-value"],
       ["MA0001.1", "MA0001.2", "0", "0.5", "1.0"],
       ["MA0001.1", "MA0002.1", "0", "0.001", "0.02"]] (by decide)⟩

/-! ## JASPAR profile metadata pagination (`_get_profile_info`) -/

/-- A profile record of a JASPAR REST result page, restricted to the fields
`_get_profile_info` reads. -/
structure JProfile where
  matrix_id : String
  name : String
  collection : String
deriving DecidableEq

/-- One page of the paginated API: its `results` list and its `next` link
(`none` models JSON null). -/
structure JPage where
  results : List JProfile
  next : Option String
deriving DecidableEq

/-- The body of the two pagination loops (`get_files.py` lines 312-317 and
324-328): each profile of the CORE collection is entered into the dict with
`profiles.setdefault(profile["matrix_id"], profile["name"])`; the first
occurrence of a matrix ID wins, profiles of other collections are
ignored. -/
def coreStep (acc : List (String × String)) (profile : JProfile) :
    List (String × String) :=
  if profile.collection == "CORE" then
    if acc.any (fun e => e.1 == profile.matrix_id) then acc
    else acc ++ [(profile.matrix_id, profile.name)]
  else acc

def addCoreProfiles (results : List JProfile) (profiles : List (String × String)) :
    List (String × String) :=
  results.foldl coreStep profiles

/-- `_get_profile_info` (`get_files.py` lines 297-334).  The pages the REST
client would deliver are given as a list: the head is the response to the
initial request and each later element the response to the previous page's
`next` link.  The `while` loop consumes pages as long as `next` is
non-null; the first page whose `next` is null is processed by the trailing
loop, and later pages are never fetched. -/
def _get_profile_info : List JPage → List (String × String) → List (String × String)
  | [], acc => acc
  | p :: rest, acc =>
    if p.next.isSome then _get_profile_info rest (addCoreProfiles p.results acc)
    else addCoreProfiles p.results acc


theorem get_profile_info_cons (p : JPage) (rest : List JPage)
    (acc : List (String × String)) :
    _get_profile_info (p :: rest) acc =
      if p.next.isSome then _get_profile_info rest (addCoreProfiles p.results acc)
      else addCoreProfiles p.results acc := rfl

theorem addCoreProfiles_mono (results : List JProfile) :
    ∀ (acc : List (String × String)) (e : String × String),
    e ∈ acc → e ∈ addCoreProfiles results acc := by
  induction results with
  | nil => intro acc e he; exact he
  | cons p ps ih =>
    intro acc e he
    show e ∈ List.foldl coreStep (coreStep acc p) ps
    apply ih
    unfold coreStep
    split
    · split
      · exact he
      · exact List.mem_append.mpr (Or.inl he)
    · exact he

theorem addCoreProfiles_sound (results : List JProfile) :
    ∀ (acc : List (String × String)) (e : String × String),
    e ∈ addCoreProfiles results acc →
    e ∈ acc ∨ ∃ p ∈ results, p.collection = "CORE" ∧ e = (p.matrix_id, p.name) := by
  induction results with
  | nil => intro acc e he; exact Or.inl he
  | cons p ps ih =>
    intro acc e he
    have he' := ih (coreStep acc p) e he
    rcases he' with he' | ⟨q, hq, hq2⟩
    · unfold coreStep at he'
      by_cases hcore : (p.collection == "CORE") = true
      · rw [if_pos hcore] at he'
        by_cases hany : (acc.any fun e => e.1 == p.matrix_id) = true
        · rw [if_pos hany] at he'
          exact Or.inl he'
        · rw [if_neg hany] at he'
          rcases List.mem_append.mp he' with h' | h'
          · exact Or.inl h'
          · exact Or.inr ⟨p, List.mem_cons_self p ps, by simpa using hcore,
              by simpa using h'⟩
      · rw [if_neg hcore] at he'
        exact Or.inl he'
    · exact Or.inr ⟨q, List.mem_cons_of_mem p hq, hq2⟩

theorem addCoreProfiles_complete (results : List JProfile) :
    ∀ (acc : List (String × String)) (p : JProfile), p ∈ results →
    p.collection = "CORE" →
    ∃ n, (p.matrix_id, n) ∈ addCoreProfiles results acc := by
  induction results with
  | nil => intro acc p hp; cases hp
  | cons q qs ih =>
    intro acc p hp hcore
    rcases List.mem_cons.mp hp with rfl | hp'
    · -- p is the head profile: after this step its key is present
      show ∃ n, _ ∈ List.foldl coreStep (coreStep acc p) qs
      unfold coreStep
      rw [if_pos (by simpa using hcore)]
      by_cases hany : acc.any (fun e => e.1 == p.matrix_id) = true
      · obtain ⟨e, he, hekey⟩ := List.any_eq_true.mp hany
        refine ⟨e.2, ?_⟩
        rw [if_pos hany]
        have heq : (p.matrix_id, e.2) = e := by
          have h1 : e.1 = p.matrix_id := by simpa using hekey
          calc (p.matrix_id, e.2) = (e.1, e.2) := by rw [h1]
          _ = e := rfl
        exact heq ▸ addCoreProfiles_mono qs acc e he
      · refine ⟨p.name, ?_⟩
        rw [if_neg hany]
        exact addCoreProfiles_mono qs _ _ (List.mem_append.mpr (Or.inr (by simp)))
    · exact ih (coreStep acc q) p hp' hcore

theorem get_profile_info_mono : ∀ (pages : List JPage) (acc : List (String × String))
    (e : String × String), e ∈ acc → e ∈ _get_profile_info pages acc := by
  intro pages
  induction pages with
  | nil => intro acc e he; exact he
  | cons p ps ih =>
    intro acc e he
    rw [get_profile_info_cons]
    split
    · exact ih _ e (addCoreProfiles_mono _ _ _ he)
    · exact addCoreProfiles_mono _ _ _ he

theorem get_profile_info_sound : ∀ (pages : List JPage) (acc : List (String × String))
    (e : String × String), e ∈ _get_profile_info pages acc →
    e ∈ acc ∨ ∃ page ∈ pages, ∃ p ∈ page.results,
      p.collection = "CORE" ∧ e = (p.matrix_id, p.name) := by
  intro pages
  induction pages with
  | nil => intro acc e he; exact Or.inl he
  | cons pg pgs ih =>
    intro acc e he
    rw [get_profile_info_cons] at he
    by_cases hn : pg.next.isSome
    · rw [if_pos hn] at he
      rcases ih _ e he with he' | ⟨page, hpage, p, hp, h1, h2⟩
      · rcases addCoreProfiles_sound _ _ _ he' with h | ⟨p, hp, h1, h2⟩
        · exact Or.inl h
        · exact Or.inr ⟨pg, List.mem_cons_self pg pgs, p, hp, h1, h2⟩
      · exact Or.inr ⟨page, List.mem_cons_of_mem pg hpage, p, hp, h1, h2⟩
    · rw [if_neg hn] at he
      rcases addCoreProfiles_sound _ _ _ he with h | ⟨p, hp, h1, h2⟩
      · exact Or.inl h
      · exact Or.inr ⟨pg, List.mem_cons_self pg pgs, p, hp, h1, h2⟩

theorem get_profile_info_complete :
    ∀ (init : List JPage) (last : JPage) (acc : List (String × String)),
    (∀ p ∈ init, p.next.isSome) → last.next = none →
    ∀ page ∈ init ++ [last], ∀ p ∈ page.results, p.collection = "CORE" →
    ∃ n, (p.matrix_id, n) ∈ _get_profile_info (init ++ [last]) acc := by
  intro init
  induction init with
  | nil =>
    intro last acc _ hlast page hpage p hp hcore
    have hpg : page = last := by simpa using hpage
    subst hpg
    obtain ⟨n, hn⟩ := addCoreProfiles_complete page.results acc p hp hcore
    refine ⟨n, ?_⟩
    rw [List.nil_append, get_profile_info_cons, if_neg (by simp [hlast])]
    exact hn
  | cons pg pgs ih =>
    intro last acc hnext hlast page hpage p hp hcore
    have hpgnext : pg.next.isSome := hnext pg (List.mem_cons_self pg pgs)
    rcases List.mem_cons.mp hpage with rfl | hpage'
    · -- the profile lives on the first page; its key survives the rest
      obtain ⟨n, hn⟩ := addCoreProfiles_complete page.results acc p hp hcore
      refine ⟨n, ?_⟩
      rw [List.cons_append, get_profile_info_cons, if_pos hpgnext]
      exact get_profile_info_mono _ _ _ hn
    · obtain ⟨n, hn⟩ := ih last (addCoreProfiles pg.results acc)
        (fun q hq => hnext q (List.mem_cons_of_mem pg hq)) hlast page hpage' p hp hcore
      refine ⟨n, ?_⟩
      rw [List.cons_append, get_profile_info_cons, if_pos hpgnext]
      exact hn

/-- C7: for every sequence of API result pages in which every page but the
last carries a `next` link and the last page's `next` is null, and whose
CORE profiles name matrix IDs consistently, `_get_profile_info` records
exactly the matrix-ID-to-name pairs of the CORE profiles of all pages,
including the final page, and records nothing from any other collection. -/
theorem get_profile_info_correct (init : List JPage) (last : JPage)
    (hnext : ∀ p ∈ init, p.next.isSome) (hlast : last.next = none)
    (hconsist : ∀ pg1 ∈ init ++ [last], ∀ pg2 ∈ init ++ [last],
      ∀ a ∈ pg1.results, ∀ b ∈ pg2.results,
      a.collection = "CORE" → b.collection = "CORE" →
      a.matrix_id = b.matrix_id → a.name = b.name) :
    ∀ mid name, (mid, name) ∈ _get_profile_info (init ++ [last]) [] ↔
      ∃ page ∈ init ++ [last], ∃ p ∈ page.results,
        p.collection = "CORE" ∧ p.matrix_id = mid ∧ p.name = name := by
  intro mid name
  constructor
  · intro h
    rcases get_profile_info_sound _ _ _ h with h' | ⟨page, hpage, p, hp, h1, h2⟩
    · cases h'
    · rw [Prod.mk.injEq] at h2
      exact ⟨page, hpage, p, hp, h1, h2.1.symm, h2.2.symm⟩
  · rintro ⟨page, hpage, p, hp, hcore, hmid, hname⟩
    obtain ⟨n, hn⟩ := get_profile_info_complete init last [] hnext hlast page hpage p hp hcore
    rcases get_profile_info_sound _ _ _ hn with h' | ⟨page2, hpage2, q, hq, hqcore, hqe⟩
    · cases h'
    · rw [Prod.mk.injEq] at hqe
      have hqname : n = p.name := by
        rw [hqe.2]
        exact hconsist page2 hpage2 page hpage q hq p hp hqcore hcore hqe.1.symm
      rw [← hmid, ← hname, ← hqname]
      exact hn

/-- Witness for C7: two linked pages; a CORE profile on each, a non-CORE
profile on the last. -/
theorem get_profile_info_correct_witness :
    ((∀ p ∈ [JPage.mk [JProfile.mk "MA0001.1" "AGL3" "CORE"] (some "page2")],
        p.next.isSome) ∧
      (JPage.mk [JProfile.mk "MA0002.1" "RUNX1" "CORE",
        JProfile.mk "UN0001.1" "X" "UNVALIDATED"] none).next = none) ∧
    ∀ mid name,
      (mid, name) ∈ _get_profile_info
        ([JPage.mk [JProfile.mk "MA0001.1" "AGL3" "CORE"] (some "page2")] ++
          [JPage.mk [JProfile.mk "MA0002.1" "RUNX1" "CORE",
            JProfile.mk "UN0001.1" "X" "UNVALIDATED"] none]) [] ↔
      ∃ page ∈ [JPage.mk [JProfile.mk "MA0001.1" "AGL3" "CORE"] (some "page2")] ++
          [JPage.mk [JProfile.mk "MA0002.1" "RUNX1" "CORE",
            JProfile.mk "UN0001.1" "X" "UNVALIDATED"] none],
        ∃ p ∈ page.results,
          p.collection = "CORE" ∧ p.matrix_id = mid ∧ p.name = name :=
  ⟨⟨by decide, by decide⟩,
    get_profile_info_correct
      [JPage.mk [JProfile.mk "MA0001.1" "AGL3" "CORE"] (some "page2")]
      (JPage.mk [JProfile.mk "MA0002.1" "RUNX1" "CORE",
        JProfile.mk "UN0001.1" "X" "UNVALIDATED"] none)
      (by decide) (by decide) (by decide)⟩

/-! ## Pfam alignments (`_get_Pfam_alignments`) -/

/-- Python dict lookup on an association list (dicts are modelled with
their keys in insertion order; keys are unique). -/
def dlookup {α : Type} : List (String × α) → String → Option α
  | [], _ => none
  | e :: d, k => if e.1 = k then some e.2 else dlookup d k

/-- `d.setdefault(k, [])`: append the key with an empty list when absent. -/
def dsetdefault {α : Type} (d : List (String × List α)) (k : String) :
    List (String × List α) :=
  if d.any (fun e => decide (e.1 = k)) then d else d ++ [(k, [])]

/-- `d[k].append(x)` on the association list. -/
def dappend {α : Type} (d : List (String × List α)) (k : String) (x : α) :
    List (String × List α) :=
  d.map (fun e => if e.1 = k then (e.1, e.2 ++ [x]) else e)

theorem dlookup_dappend {α : Type} (k : String) (x : α) :
    ∀ (d : List (String × List α)) (k' : String),
    dlookup (dappend d k x) k' =
      if k' = k then Option.map (fun l => l ++ [x]) (dlookup d k')
      else dlookup d k' := by
  intro d
  induction d with
  | nil => intro k'; by_cases h : k' = k <;> simp [dappend, dlookup, h]
  | cons e d ih =>
    intro k'
    show dlookup ((if e.1 = k then (e.1, e.2 ++ [x]) else e) :: dappend d k x) k' = _
    by_cases hek : e.1 = k <;> by_cases hek' : e.1 = k'
    · have hkk : k' = k := by rw [← hek', hek]
      simp [dlookup, hek, hek', hkk]
    · have hkk : ¬ k' = k := fun hc => hek' (by rw [hc, hek])
      have hkk2 : ¬ k = k' := fun hc => hkk hc.symm
      simp [dlookup, hek, hek', hkk, hkk2, ih k']
    · have hkk : ¬ k' = k := fun hc => hek (by rw [hek', hc])
      simp [dlookup, hek, hek', hkk]
    · by_cases hkk : k' = k
      · subst hkk
        simp [dlookup, hek, hek', ih]
      · simp [dlookup, hek, hek', hkk, ih k']

theorem dlookup_append_left {α : Type} (k : String) :
    ∀ (d1 d2 : List (String × α)) (l : α), dlookup d1 k = some l →
    dlookup (d1 ++ d2) k = some l := by
  intro d1
  induction d1 with
  | nil => intro d2 l h; cases h
  | cons e d ih =>
    intro d2 l h
    rw [dlookup] at h
    rw [List.cons_append, dlookup]
    by_cases hek : e.1 = k
    · rwa [if_pos hek] at h ⊢
    · rw [if_neg hek] at h ⊢
      exact ih d2 l h

theorem dlookup_append_right {α : Type} (k : String) :
    ∀ (d1 d2 : List (String × α)), dlookup d1 k = none →
    dlookup (d1 ++ d2) k = dlookup d2 k := by
  intro d1
  induction d1 with
  | nil => intro d2 _; rfl
  | cons e d ih =>
    intro d2 h
    rw [dlookup] at h
    rw [List.cons_append, dlookup]
    by_cases hek : e.1 = k
    · rw [if_pos hek] at h; cases h
    · rw [if_neg hek] at h ⊢
      exact ih d2 h

theorem dany_eq_isSome {α : Type} (k : String) :
    ∀ d : List (String × α), d.any (fun e => decide (e.1 = k)) = (dlookup d k).isSome := by
  intro d
  induction d with
  | nil => rfl
  | cons e d ih =>
    rw [List.any_cons, dlookup]
    by_cases hek : e.1 = k
    · simp [hek]
    · simp [hek, ih]

theorem dlookup_dsetdefault_of_some {α : Type} (d : List (String × List α))
    (k : String) (l : List α) (h : dlookup d k = some l) :
    dsetdefault d k = d := by
  unfold dsetdefault
  rw [if_pos (by rw [dany_eq_isSome, h]; rfl)]

theorem dlookup_dsetdefault_self_none {α : Type} (d : List (String × List α))
    (k : String) (h : dlookup d k = none) :
    dlookup (dsetdefault d k) k = some [] := by
  unfold dsetdefault
  rw [if_neg (by rw [dany_eq_isSome, h]; exact Bool.false_ne_true)]
  rw [dlookup_append_right k d [(k, [])] h, dlookup, if_pos rfl]

theorem dlookup_dsetdefault_other {α : Type} (d : List (String × List α))
    (k k' : String) (h : ¬ k' = k) :
    dlookup (dsetdefault d k) k' = dlookup d k' := by
  unfold dsetdefault
  split
  · rfl
  · cases hl : dlookup d k' with
    | some l => rw [dlookup_append_left k' d [(k, [])] l hl]
    | none =>
      rw [dlookup_append_right k' d [(k, [])] hl, dlookup,
        if_neg (fun hc => h hc.symm)]
      rfl

/-- One hit returned by `hmmScan(seq_file, hmm_db, non_overlapping_domains=True)`
(`get_files.py` line 496): Pfam accession, 0-based start, end, E-value (kept
as the raw string the external tool printed). -/
structure ScanHit where
  pfam_ac : String
  start : Nat
  stop : Nat
  evalue : String
deriving DecidableEq

/-- Python `seq[start:end]` (0-based half-open clamping slice). -/
def pySlice (s : String) (a b : Nat) : String := String.mk ((s.data.take b).drop a)

/-- The tuple appended for one domain hit (`get_files.py` lines 496-508):
`(pfam_ac, alignment, start+1, end, evalue)` with the 1-based start, where
the alignment realigns the subsequence `seq[start:end]` against the hit
domain's own HMM `pfam-DBDs/<pfam_ac>.hmm`; the external `hmmAlign` run is
the oracle `align`, taking the subsequence and the Pfam accession. -/
def pfamRecord (align : String → String → String) (seq : String) (h : ScanHit) :
    String × String × Nat × Nat × String :=
  (h.pfam_ac, align (pySlice seq h.start h.stop) h.pfam_ac, h.start + 1, h.stop, h.evalue)

/-- `_get_Pfam_alignments` (`get_files.py` lines 465-521): for each UniProt
accession of the taxon's uniprot JSON (entries `(uniacc, (profiles, seq))`),
`pfams.setdefault(uniacc, [])`, scan the sequence against the combined DBD
HMM database (the `hmmscan` oracle, invoked with
`non_overlapping_domains=True`), and append one record per hit to the
accession's list. -/
def _get_Pfam_alignments (hmmscan : String → List ScanHit)
    (align : String → String → String)
    (uniaccs : List (String × (List String × String))) :
    List (String × List (String × String × Nat × Nat × String)) :=
  uniaccs.foldl
    (fun pfams e =>
      (hmmscan e.2.2).foldl (fun d h => dappend d e.1 (pfamRecord align e.2.2 h))
        (dsetdefault pfams e.1))
    []

theorem fold_dappend_self {α β : Type} (u : String) (g : β → α) :
    ∀ (xs : List β) (d : List (String × List α)) (l : List α),
    dlookup d u = some l →
    dlookup (xs.foldl (fun d h => dappend d u (g h)) d) u = some (l ++ xs.map g) := by
  intro xs
  induction xs with
  | nil => intro d l h; simpa using h
  | cons x xs ih =>
    intro d l h
    rw [List.foldl_cons, List.map_cons]
    have h1 : dlookup (dappend d u (g x)) u = some (l ++ [g x]) := by
      rw [dlookup_dappend, if_pos rfl, h]
      rfl
    rw [ih _ _ h1, List.append_assoc]
    rfl

theorem fold_dappend_other {α β : Type} (u k : String) (g : β → α) (hk : ¬ k = u) :
    ∀ (xs : List β) (d : List (String × List α)),
    dlookup (xs.foldl (fun d h => dappend d u (g h)) d) k = dlookup d k := by
  intro xs
  induction xs with
  | nil => intro d; rfl
  | cons x xs ih =>
    intro d
    rw [List.foldl_cons, ih, dlookup_dappend, if_neg hk]

theorem get_Pfam_alignments_fold (hmmscan : String → List ScanHit)
    (align : String → String → String) :
    ∀ (us : List (String × (List String × String)))
      (d : List (String × List (String × String × Nat × Nat × String))),
    List.Pairwise (fun a b => a.1 ≠ b.1) us →
    (∀ e ∈ us, dlookup d e.1 = none) →
    (∀ e ∈ us,
      dlookup (us.foldl
        (fun pfams e =>
          (hmmscan e.2.2).foldl (fun d h => dappend d e.1 (pfamRecord align e.2.2 h))
            (dsetdefault pfams e.1)) d) e.1 =
        some ((hmmscan e.2.2).map (pfamRecord align e.2.2))) ∧
    (∀ k l, dlookup d k = some l →
      dlookup (us.foldl
        (fun pfams e =>
          (hmmscan e.2.2).foldl (fun d h => dappend d e.1 (pfamRecord align e.2.2 h))
            (dsetdefault pfams e.1)) d) k = some l) := by
  intro us
  induction us with
  | nil => intro d _ _; exact ⟨fun e he => absurd he (List.not_mem_nil e), fun k l h => h⟩
  | cons e us ih =>
    intro d hpw hnone
    have hu : dlookup d e.1 = none := hnone e (List.mem_cons_self e us)
    have hkeys : ∀ b ∈ us, e.1 ≠ b.1 := (List.pairwise_cons.mp hpw).1
    have hd0 : dlookup (dsetdefault d e.1) e.1 = some [] :=
      dlookup_dsetdefault_self_none d e.1 hu
    have hd1 : dlookup
        ((hmmscan e.2.2).foldl (fun d h => dappend d e.1 (pfamRecord align e.2.2 h))
          (dsetdefault d e.1)) e.1 =
        some ((hmmscan e.2.2).map (pfamRecord align e.2.2)) := by
      rw [fold_dappend_self e.1 _ _ _ [] hd0]
      rfl
    have hnone' : ∀ r ∈ us, dlookup
        ((hmmscan e.2.2).foldl (fun d h => dappend d e.1 (pfamRecord align e.2.2 h))
          (dsetdefault d e.1)) r.1 = none := by
      intro r hr
      have hne : ¬ r.1 = e.1 := fun hc => (hkeys r hr) hc.symm
      rw [fold_dappend_other e.1 r.1 _ hne, dlookup_dsetdefault_other d e.1 r.1 hne]
      exact hnone r (List.mem_cons_of_mem e hr)
    obtain ⟨hA, hB⟩ := ih _ ((List.pairwise_cons.mp hpw).2) hnone'
    constructor
    · intro r hr
      rcases List.mem_cons.mp hr with rfl | hr'
      · exact hB r.1 _ hd1
      · exact hA r hr'
    · intro k l hl
      have hne : ¬ k = e.1 := fun hc => by
        rw [hc, hu] at hl
        cases hl
      apply hB
      rw [fold_dappend_other e.1 k _ hne, dlookup_dsetdefault_other d e.1 k hne]
      exact hl

/-- C8: for every UniProt accession of the taxon's uniprot JSON (with
distinct accession keys, as in a JSON object), `_get_Pfam_alignments` scans
its sequence against the combined DBD HMM database requesting
non-overlapping domain hits, and the accession's list in the resulting Pfam
dictionary consists exactly, in hit order, of the tuples
`(pfam_ac, hmmAlign(seq[start:end], pfam_ac.hmm), start+1, end, evalue)`,
i.e. with a 1-based start coordinate. -/
theorem get_Pfam_alignments_correct (hmmscan : String → List ScanHit)
    (align : String → String → String)
    (uniaccs : List (String × (List String × String)))
    (hnodup : List.Pairwise (fun a b => a.1 ≠ b.1) uniaccs) :
    ∀ e ∈ uniaccs,
      dlookup (_get_Pfam_alignments hmmscan align uniaccs) e.1 =
        some ((hmmscan e.2.2).map (pfamRecord align e.2.2)) :=
  (get_Pfam_alignments_fold hmmscan align uniaccs []
    hnodup (fun _ _ => rfl)).1

/-- Witness for C8: one accession with sequence `MKRQWE`, one scan hit over
`[1:4]`. -/
theorem get_Pfam_alignments_correct_witness :
    List.Pairwise (fun a b => a.1 ≠ b.1)
      [("P10628", (["MA0001.1"], "MKRQWE"))] ∧
    ∀ e ∈ [("P10628", (["MA0001.1"], "MKRQWE"))],
      dlookup (_get_Pfam_alignments
        (fun s => [ScanHit.mk "PF00001" 1 4 (s ++ ":2e-11")])
        (fun sub ac => sub ++ "@" ++ ac)
        [("P10628", (["MA0001.1"], "MKRQWE"))]) e.1 =
        some (((fun s => [ScanHit.mk "PF00001" 1 4 (s ++ ":2e-11")]) e.2.2).map
          (pfamRecord (fun sub ac => sub ++ "@" ++ ac) e.2.2)) :=
  ⟨by decide,
    get_Pfam_alignments_correct
      (fun s => [ScanHit.mk "PF00001" 1 4 (s ++ ":2e-11")])
      (fun sub ac => sub ++ "@" ++ ac)
      [("P10628", (["MA0001.1"], "MKRQWE"))] (by decide)⟩

/-! ## Grouping by DBD composition (`_group_by_DBD_composition`) -/

/-- One entry of a taxon's Pfam JSON: the tuple written by
`_get_Pfam_alignments` — `[pfam_ac, alignment, start, end, evalue]`.  The
grouping stage reads fields 0 (`v[0]`, the Pfam accession) and 1 (`v[1]`,
the alignment). -/
abbrev PfamRec := String × String × Nat × Nat × String

/-- One member record appended to a group (`get_files.py` line 559):
`[uniaccs[uniacc][0], alignments, uniacc]`. -/
abbrev GroupMember := List String × List String × String

/-- `groups.setdefault(domains, []); groups[domains].append(member)`
(`get_files.py` lines 558-559). -/
def addMember (groups : List (String × List GroupMember)) (k : String)
    (m : GroupMember) : List (String × List GroupMember) :=
  dappend (dsetdefault groups k) k m

/-- All placements of the accession `u` in the groups dictionary, as
(group key, member) pairs, in dictionary order. -/
def placementsOf (groups : List (String × List GroupMember)) (u : String) :
    List (String × GroupMember) :=
  groups.foldr
    (fun g acc =>
      (g.2.filter (fun m => decide (m.2.2 = u))).map (fun m => (g.1, m)) ++ acc)
    []

theorem placementsOf_cons (g : String × List GroupMember)
    (gs : List (String × List GroupMember)) (u : String) :
    placementsOf (g :: gs) u =
      (g.2.filter (fun m => decide (m.2.2 = u))).map (fun m => (g.1, m)) ++
        placementsOf gs u := rfl

theorem placementsOf_append (g1 g2 : List (String × List GroupMember)) (u : String) :
    placementsOf (g1 ++ g2) u = placementsOf g1 u ++ placementsOf g2 u := by
  induction g1 with
  | nil => rfl
  | cons g gs ih =>
    rw [List.cons_append, placementsOf_cons, placementsOf_cons, ih, List.append_assoc]

theorem dappend_of_no_key {α : Type} (k : String) (x : α) :
    ∀ d : List (String × List α), (∀ e ∈ d, ¬ e.1 = k) → dappend d k x = d := by
  intro d
  induction d with
  | nil => intro _; rfl
  | cons e d ih =>
    intro h
    show (if e.1 = k then (e.1, e.2 ++ [x]) else e) :: dappend d k x = e :: d
    rw [if_neg (h e (List.mem_cons_self e d)),
      ih (fun r hr => h r (List.mem_cons_of_mem e hr))]

theorem placementsOf_dappend (k : String) (x : GroupMember) (u : String) :
    ∀ d : List (String × List GroupMember),
    List.Pairwise (fun a b => a.1 ≠ b.1) d →
    (∃ e ∈ d, e.1 = k) →
    List.Perm (placementsOf (dappend d k x) u)
      (placementsOf d u ++ (if x.2.2 = u then [(k, x)] else [])) := by
  intro d
  induction d with
  | nil => rintro _ ⟨e, he, _⟩; cases he
  | cons e d ih =>
    rintro hpw ⟨r, hr, hrk⟩
    rcases List.mem_cons.mp hr with rfl | hr'
    · have hnod : ∀ q ∈ d, ¬ q.1 = k := by
        intro q hq hc
        exact ((List.pairwise_cons.mp hpw).1 q hq) (by rw [hrk, hc])
      show List.Perm
        (placementsOf ((if r.1 = k then (r.1, r.2 ++ [x]) else r) :: dappend d k x) u) _
      rw [if_pos hrk, dappend_of_no_key k x d hnod, placementsOf_cons, placementsOf_cons]
      show List.Perm
        (((r.2 ++ [x]).filter (fun m => decide (m.2.2 = u))).map (fun m => (r.1, m)) ++
          placementsOf d u) _
      rw [List.filter_append, List.map_append]
      have hx : ((List.filter (fun m => decide (m.2.2 = u)) [x]).map (fun m => (r.1, m)))
          = (if x.2.2 = u then [(k, x)] else []) := by
        by_cases hxu : x.2.2 = u <;> simp [hxu, hrk]
      rw [hx, List.append_assoc, List.append_assoc]
      exact List.Perm.append_left _ List.perm_append_comm
    · have hek : ¬ e.1 = k :=
        fun hc => ((List.pairwise_cons.mp hpw).1 r hr') (by rw [hc, hrk])
      show List.Perm
        (placementsOf ((if e.1 = k then (e.1, e.2 ++ [x]) else e) :: dappend d k x) u) _
      rw [if_neg hek, placementsOf_cons, placementsOf_cons, List.append_assoc]
      exact List.Perm.append_left _ (ih (List.pairwise_cons.mp hpw).2 ⟨r, hr', hrk⟩)

theorem placementsOf_dsetdefault (d : List (String × List GroupMember))
    (k u : String) :
    placementsOf (dsetdefault d k) u = placementsOf d u := by
  unfold dsetdefault
  split
  · rfl
  · rw [placementsOf_append]
    exact List.append_nil _

theorem pairwise_dsetdefault {α : Type} (d : List (String × List α)) (k : String)
    (h : List.Pairwise (fun a b => a.1 ≠ b.1) d) :
    List.Pairwise (fun a b => a.1 ≠ b.1) (dsetdefault d k) := by
  unfold dsetdefault
  split
  · exact h
  · next hany =>
    apply List.pairwise_append.mpr
    refine ⟨h, List.pairwise_singleton _ _, ?_⟩
    intro a ha b hb
    have hb' : b = (k, []) := by simpa using hb
    rw [hb']
    intro hc
    exact hany (List.any_eq_true.mpr ⟨a, ha, by simp [hc]⟩)

theorem pairwise_dappend {α : Type} (k : String) (x : α) :
    ∀ d : List (String × List α),
    List.Pairwise (fun a b => a.1 ≠ b.1) d →
    List.Pairwise (fun a b => a.1 ≠ b.1) (dappend d k x) := by
  intro d
  induction d with
  | nil => intro _; exact List.Pairwise.nil
  | cons e d ih =>
    intro h
    obtain ⟨h1, h2⟩ := List.pairwise_cons.mp h
    show List.Pairwise _ ((if e.1 = k then (e.1, e.2 ++ [x]) else e) :: dappend d k x)
    apply List.pairwise_cons.mpr
    refine ⟨?_, ih h2⟩
    intro b hb
    obtain ⟨e', he', heq⟩ := List.mem_map.mp hb
    have hkey : b.1 = e'.1 := by
      rw [← heq]
      split <;> rfl
    have hhead : (if e.1 = k then (e.1, e.2 ++ [x]) else e).1 = e.1 := by
      split <;> rfl
    rw [hhead, hkey]
    exact h1 e' he'

theorem addMember_placements (d : List (String × List GroupMember)) (k : String)
    (x : GroupMember) (u : String)
    (hpw : List.Pairwise (fun a b => a.1 ≠ b.1) d) :
    List.Perm (placementsOf (addMember d k x) u)
      (placementsOf d u ++ (if x.2.2 = u then [(k, x)] else [])) := by
  unfold addMember
  have hpw2 := pairwise_dsetdefault d k hpw
  have hkey : ∃ e ∈ dsetdefault d k, e.1 = k := by
    unfold dsetdefault
    split
    · next hany =>
      obtain ⟨e, he, hek⟩ := List.any_eq_true.mp hany
      exact ⟨e, he, by simpa using hek⟩
    · exact ⟨(k, []), List.mem_append.mpr (Or.inr (List.mem_cons_self _ _)), rfl⟩
  have hstep := placementsOf_dappend k x u _ hpw2 hkey
  rwa [placementsOf_dsetdefault] at hstep

theorem addMember_pairwise (d : List (String × List GroupMember)) (k : String)
    (x : GroupMember) (hpw : List.Pairwise (fun a b => a.1 ≠ b.1) d) :
    List.Pairwise (fun a b => a.1 ≠ b.1) (addMember d k x) :=
  pairwise_dappend k x _ (pairwise_dsetdefault d k hpw)

/-- The inner loop of `_group_by_DBD_composition` (`get_files.py` lines
546-559) over one taxon's Pfam dict: for each accession, `domains` is the
`+`-join of the `v[0]` fields in hit order and `alignments` the list of
`v[1]` fields; accessions with `domains == ""` are skipped, every other
accession is appended to the group keyed by `domains` as
`[uniaccs[uniacc][0], alignments, uniacc]`.  `none` models the KeyError
raised when the accession is missing from the taxon's uniprot JSON. -/
def groupTaxon (uniaccs : List (String × (List String × String))) :
    List (String × List PfamRec) → List (String × List GroupMember) →
    Option (List (String × List GroupMember))
  | [], groups => some groups
  | e :: pfams, groups =>
    if String.intercalate "+" (e.2.map (fun v => v.1)) = "" then
      groupTaxon uniaccs pfams groups
    else
      match dlookup uniaccs e.1 with
      | none => none
      | some uv =>
        groupTaxon uniaccs pfams
          (addMember groups (String.intercalate "+" (e.2.map (fun v => v.1)))
            (uv.1, e.2.map (fun v => v.2.1), e.1))

/-- `_group_by_DBD_composition` (`get_files.py` lines 523-574) at the level
of the `groups` dictionary written to `groups.DBDs.json.gz`: the taxa are
given, in loop order, as pairs (Pfam JSON dict, uniprot JSON dict). -/
def _group_by_DBD_composition :
    List ((List (String × List PfamRec)) × (List (String × (List String × String)))) →
    List (String × List GroupMember) → Option (List (String × List GroupMember))
  | [], groups => some groups
  | t :: taxa, groups =>
    match groupTaxon t.2 t.1 groups with
    | none => none
    | some groups2 => _group_by_DBD_composition taxa groups2

/-- The placements the claim predicts for accession `u` from one taxon:
exactly one per Pfam-dict entry of `u` with non-empty `domains`, keyed by
the `+`-join of the entry's Pfam accessions in hit order, with the member
`[profile list of u, alignments, u]`; entries with empty joined domains
yield none. -/
def contrOf (uniaccs : List (String × (List String × String)))
    (pfams : List (String × List PfamRec)) (u : String) :
    List (String × GroupMember) :=
  pfams.filterMap (fun e =>
    if e.1 = u ∧ ¬ String.intercalate "+" (e.2.map (fun v => v.1)) = "" then
      some (String.intercalate "+" (e.2.map (fun v => v.1)),
        (((dlookup uniaccs e.1).map (fun uv => uv.1)).getD [],
          e.2.map (fun v => v.2.1), e.1))
    else none)

/-- The predicted placements of `u` across all taxa, in taxon order. -/
def allContr
    (taxa : List ((List (String × List PfamRec)) ×
      (List (String × (List String × String))))) (u : String) :
    List (String × GroupMember) :=
  taxa.foldr (fun t acc => contrOf t.2 t.1 u ++ acc) []

theorem groupTaxon_spec (uniaccs : List (String × (List String × String))) :
    ∀ (pfams : List (String × List PfamRec)) (groups : List (String × List GroupMember)),
    List.Pairwise (fun a b => a.1 ≠ b.1) groups →
    (∀ e ∈ pfams, ¬ String.intercalate "+" (e.2.map (fun v => v.1)) = "" →
      (dlookup uniaccs e.1).isSome) →
    ∃ g2, groupTaxon uniaccs pfams groups = some g2 ∧
      List.Pairwise (fun a b => a.1 ≠ b.1) g2 ∧
      ∀ u, List.Perm (placementsOf g2 u)
        (placementsOf groups u ++ contrOf uniaccs pfams u) := by
  intro pfams
  induction pfams with
  | nil =>
    intro groups hpw _
    exact ⟨groups, rfl, hpw, fun u => by simp [contrOf]⟩
  | cons e pfams ih =>
    intro groups hpw hpres
    by_cases hdom : String.intercalate "+" (e.2.map (fun v => v.1)) = ""
    · obtain ⟨g2, hg2, hpw2, hperm⟩ :=
        ih groups hpw (fun r hr h => hpres r (List.mem_cons_of_mem e hr) h)
      refine ⟨g2, by simp [groupTaxon, hdom, hg2], hpw2, ?_⟩
      intro u
      have hc : contrOf uniaccs (e :: pfams) u = contrOf uniaccs pfams u := by
        simp [contrOf, hdom]
      rw [hc]
      exact hperm u
    · have hsome := hpres e (List.mem_cons_self e pfams) hdom
      obtain ⟨uv, huv⟩ := Option.isSome_iff_exists.mp hsome
      obtain ⟨g2, hg2, hpw2, hperm⟩ :=
        ih (addMember groups (String.intercalate "+" (e.2.map (fun v => v.1)))
            (uv.1, e.2.map (fun v => v.2.1), e.1))
          (addMember_pairwise _ _ _ hpw)
          (fun r hr h => hpres r (List.mem_cons_of_mem e hr) h)
      refine ⟨g2, by simp [groupTaxon, hdom, huv, hg2], hpw2, ?_⟩
      intro u
      have hstep := addMember_placements groups
        (String.intercalate "+" (e.2.map (fun v => v.1)))
        (uv.1, e.2.map (fun v => v.2.1), e.1) u hpw
      have hc : contrOf uniaccs (e :: pfams) u =
          (if e.1 = u then
            [(String.intercalate "+" (e.2.map (fun v => v.1)),
              (uv.1, e.2.map (fun v => v.2.1), e.1))]
          else []) ++ contrOf uniaccs pfams u := by
        by_cases heu : e.1 = u
        · simp [contrOf, heu, hdom, huv]
          rw [← heu, huv]
          rfl
        · simp [contrOf, heu]
      rw [hc]
      refine ((hperm u).trans ?_)
      have := List.Perm.append_right (contrOf uniaccs pfams u) hstep
      refine this.trans ?_
      rw [List.append_assoc]

theorem group_by_DBD_fold_spec :
    ∀ (taxa : List ((List (String × List PfamRec)) ×
        (List (String × (List String × String)))))
      (groups : List (String × List GroupMember)),
    List.Pairwise (fun a b => a.1 ≠ b.1) groups →
    (∀ t ∈ taxa, ∀ e ∈ t.1,
      ¬ String.intercalate "+" (e.2.map (fun v => v.1)) = "" →
      (dlookup t.2 e.1).isSome) →
    ∃ g, _group_by_DBD_composition taxa groups = some g ∧
      List.Pairwise (fun a b => a.1 ≠ b.1) g ∧
      ∀ u, List.Perm (placementsOf g u)
        (placementsOf groups u ++ allContr taxa u) := by
  intro taxa
  induction taxa with
  | nil =>
    intro groups hpw _
    exact ⟨groups, rfl, hpw, fun u => by simp [allContr]⟩
  | cons t taxa ih =>
    intro groups hpw hpres
    obtain ⟨g1, hg1, hpw1, hperm1⟩ :=
      groupTaxon_spec t.2 t.1 groups hpw
        (fun e he h => hpres t (List.mem_cons_self t taxa) e he h)
    obtain ⟨g, hg, hpwg, hpermg⟩ :=
      ih g1 hpw1 (fun s hs e he h => hpres s (List.mem_cons_of_mem t hs) e he h)
    refine ⟨g, by simp [_group_by_DBD_composition, hg1, hg], hpwg, ?_⟩
    intro u
    refine (hpermg u).trans ?_
    refine (List.Perm.append_right (allContr taxa u) (hperm1 u)).trans ?_
    show List.Perm _ (placementsOf groups u ++
      (contrOf t.2 t.1 u ++ allContr taxa u))
    rw [List.append_assoc]

theorem mem_contrOf (uniaccs : List (String × (List String × String)))
    (pfams : List (String × List PfamRec)) (u : String)
    (x : String × GroupMember) (hx : x ∈ contrOf uniaccs pfams u) :
    ∃ e ∈ pfams, e.1 = u ∧
      ¬ String.intercalate "+" (e.2.map (fun v => v.1)) = "" ∧
      x = (String.intercalate "+" (e.2.map (fun v => v.1)),
        (((dlookup uniaccs e.1).map (fun uv => uv.1)).getD [],
          e.2.map (fun v => v.2.1), e.1)) := by
  unfold contrOf at hx
  obtain ⟨e, he, hfe⟩ := List.mem_filterMap.mp hx
  by_cases hc : e.1 = u ∧ ¬ String.intercalate "+" (e.2.map (fun v => v.1)) = ""
  · rw [if_pos hc] at hfe
    exact ⟨e, he, hc.1, hc.2, (Option.some_inj.mp hfe).symm⟩
  · rw [if_neg hc] at hfe
    cases hfe

theorem mem_allContr
    (taxa : List ((List (String × List PfamRec)) ×
      (List (String × (List String × String))))) (u : String)
    (x : String × GroupMember) :
    x ∈ allContr taxa u → ∃ t ∈ taxa, x ∈ contrOf t.2 t.1 u := by
  induction taxa with
  | nil => intro hx; cases hx
  | cons t taxa ih =>
    intro hx
    rcases List.mem_append.mp hx with hx' | hx'
    · exact ⟨t, List.mem_cons_self t taxa, hx'⟩
    · obtain ⟨s, hs, hxs⟩ := ih hx'
      exact ⟨s, List.mem_cons_of_mem t hs, hxs⟩

/-- C5: `_group_by_DBD_composition` groups proteins by concatenated domain
composition.  With every non-skipped accession present in its taxon's
uniprot JSON, the stage succeeds and the placements of each accession `u`
across the groups dictionary are, up to order, exactly one placement per
Pfam-dict entry of `u` with non-empty joined domains, keyed by the
`+`-join, in hit order, of the entry's Pfam accessions, carrying the
accession's profile list and alignments (`allContr`); an accession whose
domain list is empty in every occurrence appears in no group, and an
accession with exactly one predicted placement lies in exactly one
group. -/
theorem group_by_DBD_composition_correct
    (taxa : List ((List (String × List PfamRec)) ×
      (List (String × (List String × String)))))
    (hpres : ∀ t ∈ taxa, ∀ e ∈ t.1,
      ¬ String.intercalate "+" (e.2.map (fun v => v.1)) = "" →
      (dlookup t.2 e.1).isSome) :
    ∃ groups, _group_by_DBD_composition taxa [] = some groups ∧
      (∀ u, List.Perm (placementsOf groups u) (allContr taxa u)) ∧
      (∀ u, (∀ t ∈ taxa, ∀ e ∈ t.1, e.1 = u → e.2 = ([] : List PfamRec)) →
        placementsOf groups u = []) ∧
      (∀ u, (allContr taxa u).length = 1 →
        ∃ x, placementsOf groups u = [x] ∧ x ∈ allContr taxa u) := by
  obtain ⟨g, hg, _, hperm⟩ := group_by_DBD_fold_spec taxa [] List.Pairwise.nil hpres
  have hperm' : ∀ u, List.Perm (placementsOf g u) (allContr taxa u) := fun u => hperm u
  refine ⟨g, hg, hperm', ?_, ?_⟩
  · intro u hu
    have hnil : allContr taxa u = [] := by
      rw [List.eq_nil_iff_forall_not_mem]
      intro x hx
      obtain ⟨t, ht, hxt⟩ := mem_allContr taxa u x hx
      obtain ⟨e, he, heu, hdom, _⟩ := mem_contrOf t.2 t.1 u x hxt
      have : e.2 = [] := hu t ht e he heu
      rw [this] at hdom
      exact hdom rfl
    have := hperm' u
    rw [hnil] at this
    exact this.eq_nil
  · intro u hlen
    have hp := hperm' u
    have hl : (placementsOf g u).length = 1 := by rw [hp.length_eq, hlen]
    obtain ⟨x, hx⟩ := List.length_eq_one.mp hl
    refine ⟨x, hx, ?_⟩
    rw [← hp.mem_iff, hx]
    exact List.mem_cons_self x []

/-- Witness for C5: one taxon, one accession with one domain hit (placed in
one group keyed by its Pfam accession) and one accession with no hits
(placed nowhere). -/
theorem group_by_DBD_composition_correct_witness :
    (∀ t ∈ [([("P10000", [("PF00046", "alnA", 2, 60, "3e-20")]), ("P20000", [])],
        [("P10000", (["MA0001.1"], "SEQA")), ("P20000", ([], "SEQB"))])],
      ∀ e ∈ t.1, ¬ String.intercalate "+" (e.2.map (fun v => v.1)) = "" →
        (dlookup t.2 e.1).isSome) ∧
    (∃ groups, _group_by_DBD_composition
        [([("P10000", [("PF00046", "alnA", 2, 60, "3e-20")]), ("P20000", [])],
          [("P10000", (["MA0001.1"], "SEQA")), ("P20000", ([], "SEQB"))])] []
        = some groups ∧
      (∀ u, List.Perm (placementsOf groups u)
        (allContr [([("P10000", [("PF00046", "alnA", 2, 60, "3e-20")]), ("P20000", [])],
          [("P10000", (["MA0001.1"], "SEQA")), ("P20000", ([], "SEQB"))])] u)) ∧
      (∀ u, (∀ t ∈ [([("P10000", [("PF00046", "alnA", 2, 60, "3e-20")]), ("P20000", [])],
          [("P10000", (["MA0001.1"], "SEQA")), ("P20000", ([], "SEQB"))])],
          ∀ e ∈ t.1, e.1 = u → e.2 = ([] : List PfamRec)) →
        placementsOf groups u = []) ∧
      (∀ u, (allContr [([("P10000", [("PF00046", "alnA", 2, 60, "3e-20")]), ("P20000", [])],
          [("P10000", (["MA0001.1"], "SEQA")), ("P20000", ([], "SEQB"))])] u).length = 1 →
        ∃ x, placementsOf groups u = [x] ∧
          x ∈ allContr [([("P10000", [("PF00046", "alnA", 2, 60, "3e-20")]), ("P20000", [])],
            [("P10000", (["MA0001.1"], "SEQA")), ("P20000", ([], "SEQB"))])] u)) :=
  ⟨by decide,
    group_by_DBD_composition_correct
      [([("P10000", [("PF00046", "alnA", 2, 60, "3e-20")]), ("P20000", [])],
        [("P10000", (["MA0001.1"], "SEQA")), ("P20000", ([], "SEQB"))])]
      (by decide)⟩

/-! ## UniProt sequences (`_download_UniProt_sequences`) -/

/-- The hard-coded `faulty_profiles` table (`get_files.py` lines 339-350):
profiles whose API record carries wrong UniProt accessions. -/
def faulty_profiles : List (String × List String) :=
  [("MA0024.1", ["Q01094"]), ("MA0046.1", ["P20823"]), ("MA0052.1", ["Q02078"]),
   ("MA0058.1", ["P61244"]), ("MA0098.1", ["P14921"]), ("MA0110.1", ["P46667"]),
   ("MA0138.1", ["Q13127"]), ("MA0328.1", ["P0CY08"]), ("MA0529.1", ["Q94513"]),
   ("MA0529.2", ["Q94513"])]

/-- The hard-coded `faulty_sequences` table (`get_files.py` lines 351-372):
accessions whose sequence is stored verbatim instead of being queried. -/
def faulty_sequences : List (String × List String) :=
  [("B9GPL8",
    ["MEEVGAQVAAPIFIHEALSSRYCDMTSMAKKHDLSYQSPNSQLQQHQFLQASREKNWNSK",
     "AWDWDSVDDDGLGLNLGGSLTSVEEPVSRPNKRVRSGSPGNGSYPMCQVDNCKEDLSKAK",
     "DYHRRHKVCQVHSKATKALVGKQMQRFCQQCSRFHPLTEFDEGKRSCRRRLAGHNRRRRK",
     "TQPEDVTSRLLLPGNPDMNNNGNLDIVNLLTALARSQGKTYLPMIDFYVPPFVLTNCPTV",
     "PDKDQLIQILNKINSLPLPMDLAAKLSNIASLNVKNPNQPYLGHQNRLNGTASSPSTNDL",
     "LAVLSTTLAASAPDALAILSQRSSQSSDNDKSKLPGPNQVTVPHLQKRSNVEFPAVGVER",
     "ISRCYESPAEDSDYQIQESRPNLPLQLFSSSPENESRQKPASSGKYFSSDSSNPIEERSP",
     "SSSPPVVQKLFPLQSTAETMKSEKMSVSREVNANVEGDRSHGCVLPLELFRGPNREPDHS",
     "SFQSFPYRGGYTSSSGSDHSPSSQNSDPQDRTGRIIFKLFDKDPSHFPGTLRTKIYNWLS",
     "NSPSEMESYIRPGCVVLSVYLSMPSASWEQLERNLLQLVDSLVQDSDSDLWRSGRFLLNT",
     "GRQLASHKDGKVRLCKSWRTWSSPELILVSPVAVIGGQETSLQLKGRNLTGPGTKIHCTY",
     "MGGYTSKEVTDSSSPGSMYDEINVGGFKIHGPSPSILGRCFIEVENGFKGNSFPVIIADA",
     "SICKELRLLESEFDENAVVSNIVSEEQTRDLGRPRSREEVMHFLNELGWLFQRKSMPSMH",
     "EAPDYSLNRFKFLLIFSVERDYCVLVKTILDMLVERNTCRDELSKEHLEMLYEIQLLNRS",
     "VKRRCRKMADLLIHYSIIGGDNSSRTYIFPPNVGGPGGITPLHLAACASGSDGLVDALTN",
     "DPHEIGLSCWNSVLDANGLSPYAYAVMTKNHSYNLLVARKLADKRNGQISVAIGNEIEQA",
     "ALEQEHVTISQFQRERKSCAKCASVAAKMHGRFLGSQGLLQRPYVHSMLAIAAVCVCVCL",
     "FFRGAPDIGLVAPFKWENLNYGTI"])]

/-- Python `s.strip(" ")`: remove leading and trailing space characters. -/
def stripSpaces (s : String) : String :=
  String.mk (((s.data.dropWhile (fun c => c == ' ')).reverse.dropWhile
    (fun c => c == ' ')).reverse)

/-- Python `"".join(s.split("\n"))`: delete every newline character. -/
def stripNewlines (s : String) : String :=
  String.mk (s.data.filter (fun c => !(c == '\n')))

/-- The `uniprot_ids` used for a profile (`get_files.py` lines 392-399):
the API-returned list (`api` yields the record's `matrix_id` and
`uniprot_ids` fields), unless the returned matrix ID is in
`faulty_profiles`, in which case the hard-coded accessions replace
whatever the API returned. -/
def effectiveIds (api : String → String × List String) (profile : String) :
    List String :=
  match dlookup faulty_profiles (api profile).1 with
  | some ids => ids
  | none => (api profile).2

/-- Processing of one raw UniProt accession of one profile (`get_files.py`
lines 401-410): the accession is stripped of spaces, entered with
`uniaccs.setdefault(uniacc, [[], None])`, and the profile appended to its
list when not already present. -/
def idStep (profile : String)
    (d : List (String × (List String × Option String))) (raw : String) :
    List (String × (List String × Option String)) :=
  (if d.any (fun e => decide (e.1 = stripSpaces raw)) then d
   else d ++ [(stripSpaces raw, ([], none))]).map
    (fun e => (e.1,
      if e.1 = stripSpaces raw ∧ ¬ profile ∈ e.2.1 then
        (e.2.1 ++ [profile], e.2.2)
      else e.2))

/-- All accessions of one profile (`get_files.py` lines 396-410). -/
def uniaccStep (api : String → String × List String)
    (d : List (String × (List String × Option String))) (profile : String) :
    List (String × (List String × Option String)) :=
  (effectiveIds api profile).foldl (idStep profile) d

/-- Phase 1 of `_download_UniProt_sequences` (`get_files.py` lines
377-414): the `uniaccs` dict accumulated over the profiles of the taxon's
profiles JSON in `sorted(profiles)` order. -/
def buildUniaccs (api : String → String × List String) (profiles : List String) :
    List (String × (List String × Option String)) :=
  (pySorted profiles).foldl (uniaccStep api) []

/-- The sequence phase 2 stores for an accession (`get_files.py` lines
424-434): the joined hard-coded lines for accessions of
`faulty_sequences`, otherwise the newline-joined sequence returned by
`uniprot.queryUniprot` (the `q` oracle). -/
def seqFor (q : String → String) (u : String) : String :=
  match dlookup faulty_sequences u with
  | some lines => String.join lines
  | none => stripNewlines (q u)

/-- Phase 2 of `_download_UniProt_sequences` (`get_files.py` lines
416-440): every accession receives its sequence; the second component
collects the accessions for which a sequence-database query was actually
issued — accessions of `faulty_sequences` are skipped with `continue`
before any query. -/
def fillSequences (q : String → String)
    (uniaccs : List (String × (List String × Option String))) :
    List (String × (List String × Option String)) × List String :=
  uniaccs.foldl (fun acc e =>
    match dlookup faulty_sequences e.1 with
    | some lines => (acc.1 ++ [(e.1, (e.2.1, some (String.join lines)))], acc.2)
    | none => (acc.1 ++ [(e.1, (e.2.1, some (stripNewlines (q e.1))))],
        acc.2 ++ [e.1]))
    ([], [])

/-- `_download_UniProt_sequences` for one taxon (`get_files.py` lines
336-443), at the level of the data written to `.taxon.uniaccs.pickle` and
`taxon.uniprot.json`, together with the list of accessions queried against
the sequence database. -/
def _download_UniProt_sequences (api : String → String × List String)
    (q : String → String) (profiles : List String) :
    List (String × (List String × Option String)) × List String :=
  fillSequences q (buildUniaccs api profiles)

/-- The profiles of the (sorted) profile list that mention accession `u`
among their stripped effective UniProt accessions. -/
def hitProfiles (api : String → String × List String) (ps : List String)
    (u : String) : List String :=
  ps.filter (fun p => decide (u ∈ (effectiveIds api p).map stripSpaces))

theorem dlookup_map_keyed {α β : Type} (f : String → α → β) :
    ∀ (d : List (String × α)) (u : String),
    dlookup (d.map (fun e => (e.1, f e.1 e.2))) u = Option.map (f u) (dlookup d u) := by
  intro d
  induction d with
  | nil => intro u; rfl
  | cons e d ih =>
    intro u
    show dlookup ((e.1, f e.1 e.2) :: _) u = _
    rw [dlookup, dlookup]
    by_cases hek : e.1 = u
    · subst hek
      rw [if_pos rfl, if_pos rfl]
      rfl
    · rw [if_neg hek, if_neg hek, ih u]

theorem dlookup_mem {α : Type} (u : String) (v : α) :
    ∀ d : List (String × α), dlookup d u = some v → (u, v) ∈ d := by
  intro d
  induction d with
  | nil => intro h; cases h
  | cons e d ih =>
    intro h
    rw [dlookup] at h
    by_cases hek : e.1 = u
    · rw [if_pos hek] at h
      refine List.mem_cons.mpr (Or.inl ?_)
      have : v = e.2 := (Option.some_inj.mp h).symm
      rw [this, ← hek]
    · rw [if_neg hek] at h
      exact List.mem_cons_of_mem e (ih h)

theorem dlookup_idmap (profile raw : String) :
    ∀ (d : List (String × (List String × Option String))) (u' : String),
    dlookup (d.map (fun e => (e.1,
      if e.1 = stripSpaces raw ∧ ¬ profile ∈ e.2.1 then
        (e.2.1 ++ [profile], e.2.2) else e.2))) u' =
    Option.map (fun v =>
      if u' = stripSpaces raw ∧ ¬ profile ∈ v.1 then (v.1 ++ [profile], v.2) else v)
      (dlookup d u') := by
  intro d
  induction d with
  | nil => intro u'; rfl
  | cons e d ih =>
    intro u'
    show dlookup ((e.1, _) :: _) u' = _
    rw [dlookup, dlookup]
    by_cases hek : e.1 = u'
    · subst hek
      rw [if_pos rfl, if_pos rfl]
      rfl
    · rw [if_neg hek, if_neg hek, ih u']

theorem idStep_lookup (profile raw : String)
    (d : List (String × (List String × Option String))) (u' : String) :
    dlookup (idStep profile d raw) u' =
      if u' = stripSpaces raw then
        some (match dlookup d u' with
          | some v => if profile ∈ v.1 then v else (v.1 ++ [profile], v.2)
          | none => ([profile], none))
      else dlookup d u' := by
  unfold idStep
  by_cases hany : (d.any (fun e => decide (e.1 = stripSpaces raw))) = true
  · rw [if_pos hany, dlookup_idmap]
    by_cases hu : u' = stripSpaces raw
    · rw [if_pos hu]
      have hsome : (dlookup d u').isSome := by
        rw [← hu] at hany
        rw [← dany_eq_isSome u' d]
        exact hany
      obtain ⟨v, hv⟩ := Option.isSome_iff_exists.mp hsome
      rw [hv]
      by_cases hp : profile ∈ v.1
      · simp [hu, hp]
      · simp [hu, hp]
    · rw [if_neg hu]
      cases hv : dlookup d u' with
      | none => rfl
      | some v => simp [hu]
  · rw [if_neg hany, List.map_append]
    have hnone : dlookup d (stripSpaces raw) = none := by
      cases hl : dlookup d (stripSpaces raw) with
      | none => rfl
      | some v =>
        exact absurd (by rw [dany_eq_isSome, hl]; rfl) hany
    by_cases hu : u' = stripSpaces raw
    · rw [if_pos hu]
      have h1 : dlookup (d.map (fun e => (e.1,
          if e.1 = stripSpaces raw ∧ ¬ profile ∈ e.2.1 then
            (e.2.1 ++ [profile], e.2.2) else e.2))) u' = none := by
        rw [dlookup_idmap, hu, hnone]
        rfl
      rw [dlookup_append_right u' _ _ h1, hu, hnone]
      show dlookup [(stripSpaces raw,
        if stripSpaces raw = stripSpaces raw ∧ ¬ profile ∈ ([] : List String) then
          (([] : List String) ++ [profile], (none : Option String)) else ([], none))]
        (stripSpaces raw) = _
      rw [dlookup, if_pos rfl, if_pos ⟨rfl, List.not_mem_nil profile⟩]
      rfl
    · rw [if_neg hu]
      cases hv : dlookup d u' with
      | some v =>
        have h1 : dlookup (d.map (fun e => (e.1,
            if e.1 = stripSpaces raw ∧ ¬ profile ∈ e.2.1 then
              (e.2.1 ++ [profile], e.2.2) else e.2))) u' = some v := by
          rw [dlookup_idmap, hv]
          simp [hu]
        exact dlookup_append_left u' _ _ _ h1
      | none =>
        have h1 : dlookup (d.map (fun e => (e.1,
            if e.1 = stripSpaces raw ∧ ¬ profile ∈ e.2.1 then
              (e.2.1 ++ [profile], e.2.2) else e.2))) u' = none := by
          rw [dlookup_idmap, hv]
          rfl
        rw [dlookup_append_right u' _ _ h1]
        show dlookup [(stripSpaces raw, _)] u' = none
        rw [dlookup, if_neg (fun hc => hu hc.symm)]
        rfl

theorem uniaccStep_fold_lookup (profile : String) :
    ∀ (ids : List String) (d : List (String × (List String × Option String)))
      (u' : String),
    dlookup (ids.foldl (idStep profile) d) u' =
      if u' ∈ ids.map stripSpaces then
        some (match dlookup d u' with
          | some v => if profile ∈ v.1 then v else (v.1 ++ [profile], v.2)
          | none => ([profile], none))
      else dlookup d u' := by
  intro ids
  induction ids with
  | nil =>
    intro d u'
    rw [List.map_nil, List.foldl_nil, if_neg (List.not_mem_nil u')]
  | cons raw ids ih =>
    intro d u'
    rw [List.foldl_cons, ih, List.map_cons]
    by_cases hu : u' = stripSpaces raw
    · have hd1 : dlookup (idStep profile d raw) u' =
          some (match dlookup d u' with
            | some v => if profile ∈ v.1 then v else (v.1 ++ [profile], v.2)
            | none => ([profile], none)) := by
        rw [idStep_lookup, if_pos hu]
      have hin : u' ∈ stripSpaces raw :: ids.map stripSpaces :=
        List.mem_cons.mpr (Or.inl hu)
      rw [if_pos hin]
      by_cases hrest : u' ∈ ids.map stripSpaces
      · rw [if_pos hrest, hd1]
        cases hv : dlookup d u' with
        | some v =>
          by_cases hp : profile ∈ v.1
          · simp [hp]
          · simp [hp]
        | none => simp
      · rw [if_neg hrest, hd1]
    · have hd1 : dlookup (idStep profile d raw) u' = dlookup d u' := by
        rw [idStep_lookup, if_neg hu]
      by_cases hrest : u' ∈ ids.map stripSpaces
      · rw [if_pos hrest, if_pos (List.mem_cons.mpr (Or.inr hrest)), hd1]
      · rw [if_neg hrest, hd1,
          if_neg (fun hc => (List.mem_cons.mp hc).elim hu hrest)]

theorem mem_idStep_entries (profile raw : String)
    (d : List (String × (List String × Option String))) :
    ∀ e ∈ idStep profile d raw, ∀ x ∈ e.2.1,
      x = profile ∨ ∃ e0 ∈ d, x ∈ e0.2.1 := by
  intro e he x hx
  unfold idStep at he
  obtain ⟨e1, he1, heq⟩ := List.mem_map.mp he
  have he1' : e1 ∈ d ∨ e1 = (stripSpaces raw, ([], none)) := by
    revert he1
    split
    · exact fun h => Or.inl h
    · intro h
      rcases List.mem_append.mp h with h' | h'
      · exact Or.inl h'
      · exact Or.inr (by simpa using h')
  have hx1 : x ∈ e1.2.1 ∨ x = profile := by
    rw [← heq] at hx
    by_cases hc : e1.1 = stripSpaces raw ∧ ¬ profile ∈ e1.2.1
    · rw [if_pos hc] at hx
      rcases List.mem_append.mp hx with h' | h'
      · exact Or.inl h'
      · exact Or.inr (by simpa using h')
    · rw [if_neg hc] at hx
      exact Or.inl hx
  rcases hx1 with h' | h'
  · rcases he1' with h1 | h1
    · exact Or.inr ⟨e1, h1, h'⟩
    · rw [h1] at h'
      simp at h'
  · exact Or.inl h'

theorem mem_idStep_fold_entries (profile : String) :
    ∀ (ids : List String) (d : List (String × (List String × Option String))),
    ∀ e ∈ ids.foldl (idStep profile) d, ∀ x ∈ e.2.1,
      x = profile ∨ ∃ e0 ∈ d, x ∈ e0.2.1 := by
  intro ids
  induction ids with
  | nil => intro d e he x hx; exact Or.inr ⟨e, he, hx⟩
  | cons raw ids ih =>
    intro d e he x hx
    rcases ih (idStep profile d raw) e he x hx with h | ⟨e0, he0, hx0⟩
    · exact Or.inl h
    · exact mem_idStep_entries profile raw d e0 he0 x hx0

theorem buildUniaccs_fold_lookup (api : String → String × List String) :
    ∀ (ps : List String) (d : List (String × (List String × Option String))),
    ps.Nodup →
    (∀ p ∈ ps, ∀ e ∈ d, ¬ p ∈ e.2.1) →
    ∀ u, dlookup (ps.foldl (uniaccStep api) d) u =
      match dlookup d u with
      | some v => some (v.1 ++ hitProfiles api ps u, v.2)
      | none =>
        if hitProfiles api ps u = [] then none
        else some (hitProfiles api ps u, none) := by
  intro ps
  induction ps with
  | nil =>
    intro d _ _ u
    cases hv : dlookup d u with
    | some v => simp [hitProfiles, hv]
    | none => simp [hitProfiles, hv]
  | cons p ps ih =>
    intro d hnd hfree u
    obtain ⟨hp_not, hnd'⟩ := List.nodup_cons.mp hnd
    rw [List.foldl_cons]
    have hfree' : ∀ p' ∈ ps, ∀ e ∈ uniaccStep api d p, ¬ p' ∈ e.2.1 := by
      intro p' hp' e he hc
      rcases mem_idStep_fold_entries p _ d e he p' hc with h | ⟨e0, he0, hx0⟩
      · exact hp_not (h ▸ hp')
      · exact hfree p' (List.mem_cons_of_mem p hp') e0 he0 hx0
    rw [ih (uniaccStep api d p) hnd' hfree' u]
    have hstep := uniaccStep_fold_lookup p (effectiveIds api p) d u
    by_cases hin : u ∈ (effectiveIds api p).map stripSpaces
    · have hhit : hitProfiles api (p :: ps) u = p :: hitProfiles api ps u := by
        unfold hitProfiles
        rw [List.filter_cons, if_pos (by simpa using hin)]
      rw [show (uniaccStep api d p) = (effectiveIds api p).foldl (idStep p) d from rfl,
        hstep, if_pos hin, hhit]
      cases hv : dlookup d u with
      | some v =>
        have hpv : ¬ p ∈ v.1 :=
          hfree p (List.mem_cons_self p ps) (u, v) (dlookup_mem u v d hv)
        simp only [hv, if_neg hpv]
        rw [List.append_assoc]
        rfl
      | none =>
        simp only [hv]
        rw [if_neg (List.cons_ne_nil p (hitProfiles api ps u))]
        rfl
    · have hhit : hitProfiles api (p :: ps) u = hitProfiles api ps u := by
        unfold hitProfiles
        rw [List.filter_cons, if_neg (by simpa using hin)]
      rw [show (uniaccStep api d p) = (effectiveIds api p).foldl (idStep p) d from rfl,
        hstep, if_neg hin, hhit]

theorem fillSequences_go (q : String → String) :
    ∀ (us : List (String × (List String × Option String)))
      (acc : List (String × (List String × Option String)) × List String),
    us.foldl (fun acc e =>
      match dlookup faulty_sequences e.1 with
      | some lines => (acc.1 ++ [(e.1, (e.2.1, some (String.join lines)))], acc.2)
      | none => (acc.1 ++ [(e.1, (e.2.1, some (stripNewlines (q e.1))))],
          acc.2 ++ [e.1])) acc =
      (acc.1 ++ us.map (fun e => (e.1, (e.2.1, some (seqFor q e.1)))),
        acc.2 ++ us.filterMap (fun e =>
          if (dlookup faulty_sequences e.1).isSome then none else some e.1)) := by
  intro us
  induction us with
  | nil => intro acc; simp
  | cons e us ih =>
    intro acc
    rw [List.foldl_cons]
    cases hf : dlookup faulty_sequences e.1 with
    | some lines =>
      simp only [hf]
      rw [ih]
      simp [seqFor, hf, List.append_assoc]
    | none =>
      simp only [hf]
      rw [ih]
      simp [seqFor, hf, List.append_assoc]

theorem fillSequences_eq (q : String → String)
    (us : List (String × (List String × Option String))) :
    fillSequences q us =
      (us.map (fun e => (e.1, (e.2.1, some (seqFor q e.1)))),
        us.filterMap (fun e =>
          if (dlookup faulty_sequences e.1).isSome then none else some e.1)) := by
  unfold fillSequences
  rw [fillSequences_go]
  simp

theorem dlookup_fillmap (q : String → String) :
    ∀ (D : List (String × (List String × Option String))) (u : String),
    dlookup (D.map (fun e => (e.1, (e.2.1, some (seqFor q e.1))))) u =
      Option.map (fun v => (v.1, some (seqFor q u))) (dlookup D u) := by
  intro D
  induction D with
  | nil => intro u; rfl
  | cons e D ih =>
    intro u
    show dlookup ((e.1, _) :: _) u = _
    rw [dlookup, dlookup]
    by_cases hek : e.1 = u
    · subst hek
      rw [if_pos rfl, if_pos rfl]
      rfl
    · rw [if_neg hek, if_neg hek, ih u]

/-- C6: the sequence fetcher applies the hard-coded overrides: (a) for every
profile whose API-returned matrix ID is in `faulty_profiles`, the profile is
attributed exactly to the (space-stripped) hard-coded accessions — the
API's `uniprot_ids` are never used for it; (b) every accession in
`faulty_sequences` is stored with the joined hard-coded sequence while every
other accession is stored with the sequence returned by the database; (c)
no sequence-database query is issued for a faulty accession and every other
stored accession is queried. -/
theorem download_UniProt_sequences_correct (api : String → String × List String)
    (q : String → String) (profiles : List String) (hnodup : profiles.Nodup) :
    (∀ p ∈ profiles, ∀ ids, dlookup faulty_profiles (api p).1 = some ids →
      ∀ u, p ∈ ((dlookup (_download_UniProt_sequences api q profiles).1 u).map
          (fun v => v.1)).getD [] ↔ u ∈ ids.map stripSpaces) ∧
    (∀ e ∈ (_download_UniProt_sequences api q profiles).1,
      (∀ lines, dlookup faulty_sequences e.1 = some lines →
        e.2.2 = some (String.join lines)) ∧
      (dlookup faulty_sequences e.1 = none →
        e.2.2 = some (stripNewlines (q e.1)))) ∧
    (∀ u ∈ (_download_UniProt_sequences api q profiles).2,
      dlookup faulty_sequences u = none) ∧
    (∀ e ∈ (_download_UniProt_sequences api q profiles).1,
      dlookup faulty_sequences e.1 = none →
        e.1 ∈ (_download_UniProt_sequences api q profiles).2) := by
  have hres : _download_UniProt_sequences api q profiles =
      ((buildUniaccs api profiles).map
        (fun e => (e.1, (e.2.1, some (seqFor q e.1)))),
       (buildUniaccs api profiles).filterMap (fun e =>
         if (dlookup faulty_sequences e.1).isSome then none else some e.1)) := by
    unfold _download_UniProt_sequences
    exact fillSequences_eq q (buildUniaccs api profiles)
  have hsortnd : (pySorted profiles).Nodup :=
    (List.perm_insertionSort ascLe profiles).nodup_iff.mpr hnodup
  have hbuild : ∀ u, dlookup (buildUniaccs api profiles) u =
      if hitProfiles api (pySorted profiles) u = [] then none
      else some (hitProfiles api (pySorted profiles) u, none) := by
    intro u
    have := buildUniaccs_fold_lookup api (pySorted profiles) [] hsortnd
      (fun p _ e he => absurd he (List.not_mem_nil e)) u
    exact this
  refine ⟨?_, ?_, ?_, ?_⟩
  · intro p hp ids hfp u
    rw [hres]
    show p ∈ ((dlookup ((buildUniaccs api profiles).map
        (fun e => (e.1, (e.2.1, some (seqFor q e.1))))) u).map
        (fun v => v.1)).getD [] ↔ _
    rw [dlookup_fillmap, hbuild u]
    have hmemhit : p ∈ hitProfiles api (pySorted profiles) u ↔
        u ∈ ids.map stripSpaces := by
      unfold hitProfiles
      rw [List.mem_filter]
      constructor
      · rintro ⟨_, hdec⟩
        have : u ∈ (effectiveIds api p).map stripSpaces := by simpa using hdec
        unfold effectiveIds at this
        rwa [hfp] at this
      · intro hu
        refine ⟨List.mem_insertionSort ascLe |>.mpr hp, ?_⟩
        simp only [decide_eq_true_eq]
        unfold effectiveIds
        rw [hfp]
        exact hu
    by_cases hnil : hitProfiles api (pySorted profiles) u = []
    · rw [if_pos hnil]
      rw [hnil] at hmemhit
      simpa using hmemhit
    · rw [if_neg hnil]
      simpa using hmemhit
  · intro e he
    rw [hres] at he
    obtain ⟨e0, _, heq⟩ := List.mem_map.mp he
    constructor
    · intro lines hl
      rw [← heq]
      show some (seqFor q e0.1) = some (String.join lines)
      rw [← heq] at hl
      unfold seqFor
      rw [show dlookup faulty_sequences e0.1 = some lines from hl]
    · intro hl
      rw [← heq]
      show some (seqFor q e0.1) = some (stripNewlines (q e0.1))
      rw [← heq] at hl
      unfold seqFor
      rw [show dlookup faulty_sequences e0.1 = none from hl]
  · intro u hu
    rw [hres] at hu
    obtain ⟨e0, _, hcond⟩ := List.mem_filterMap.mp hu
    by_cases hf : (dlookup faulty_sequences e0.1).isSome
    · rw [if_pos hf] at hcond
      cases hcond
    · rw [if_neg hf] at hcond
      have : e0.1 = u := Option.some_inj.mp hcond
      rw [← this]
      exact Option.not_isSome_iff_eq_none.mp hf
  · intro e he hnone
    rw [hres] at he ⊢
    obtain ⟨e0, he0, heq⟩ := List.mem_map.mp he
    have h1 : e.1 = e0.1 := by rw [← heq]
    apply List.mem_filterMap.mpr
    refine ⟨e0, he0, ?_⟩
    rw [h1] at hnone
    rw [if_neg (by rw [hnone]; exact Bool.false_ne_true), h1]

/-- Witness for C6: one faulty profile (`MA0024.1`) whose API accessions
are replaced, plus the faulty accession table itself. -/
theorem download_UniProt_sequences_correct_witness :
    ["MA0024.1"].Nodup ∧
    ((∀ p ∈ ["MA0024.1"], ∀ ids,
        dlookup faulty_profiles ((fun pr => (pr, ["WRONG1"])) p).1 = some ids →
      ∀ u, p ∈ ((dlookup (_download_UniProt_sequences (fun pr => (pr, ["WRONG1"]))
            (fun _ => "ABC\nDEF") ["MA0024.1"]).1 u).map
          (fun v => v.1)).getD [] ↔ u ∈ ids.map stripSpaces) ∧
    (∀ e ∈ (_download_UniProt_sequences (fun pr => (pr, ["WRONG1"]))
        (fun _ => "ABC\nDEF") ["MA0024.1"]).1,
      (∀ lines, dlookup faulty_sequences e.1 = some lines →
        e.2.2 = some (String.join lines)) ∧
      (dlookup faulty_sequences e.1 = none →
        e.2.2 = some (stripNewlines ((fun _ => "ABC\nDEF") e.1)))) ∧
    (∀ u ∈ (_download_UniProt_sequences (fun pr => (pr, ["WRONG1"]))
        (fun _ => "ABC\nDEF") ["MA0024.1"]).2,
      dlookup faulty_sequences u = none) ∧
    (∀ e ∈ (_download_UniProt_sequences (fun pr => (pr, ["WRONG1"]))
        (fun _ => "ABC\nDEF") ["MA0024.1"]).1,
      dlookup faulty_sequences e.1 = none →
        e.1 ∈ (_download_UniProt_sequences (fun pr => (pr, ["WRONG1"]))
          (fun _ => "ABC\nDEF") ["MA0024.1"]).2)) :=
  ⟨by decide,
    download_UniProt_sequences_correct (fun pr => (pr, ["WRONG1"]))
      (fun _ => "ABC\nDEF") ["MA0024.1"] (by decide)⟩

/-! ## Skip-if-output-exists control flow (`get_files` / `train_models`) -/

/-- The cache artifacts and tool outputs the pipeline stages create or
delete, at file/directory granularity.  `hmmFiles` stands for the
per-domain HMM files under `pfam-DBDs/`, `profileFiles` for the unzipped
profile files inside a taxon directory. -/
inductive Artifact where
  | cisbpZip
  | pfamDir
  | hmmFiles
  | hmmDB
  | pfamDBDjson
  | taxonDir (taxon : String)
  | profileFiles (taxon : String)
  | profilesJson (taxon : String)
  | uniaccsPickle (taxon : String)
  | uniprotJson (taxon : String)
  | fastaFile (taxon : String)
  | blastDB (taxon : String)
  | pfamJson (taxon : String)
  | groupsDBDs
  | jasparMeme
  | groupsTomtom
  | modelsPickle
deriving DecidableEq

/-- A file-system state: the artifacts that exist (membership is what
matters). -/
abbrev FS := List Artifact

/-- Create an artifact (no change when already present). -/
def addA (s : FS) (a : Artifact) : FS := if a ∈ s then s else a :: s

/-- Delete an artifact (with its contents, for directories). -/
def delA (s : FS) (a : Artifact) : FS := s.filter (fun b => decide (¬ b = a))

/-- `_download_Pfam_DBD_HMMs` (`get_files.py` lines 117-263): guarded by
`pfam-DBDs.json`; the body downloads the Cis-BP zip (if absent), builds the
per-domain HMM files in `pfam-DBDs/`, builds and presses the combined
`all_DBDs.hmm` (if absent), writes `pfam-DBDs.json`, and finally removes
the Cis-BP zip (lines 258-260).  Downloads and tool invocations are
abstracted into the artifacts they create. -/
def _download_Pfam_DBD_HMMs (s : FS) : FS :=
  if Artifact.pfamDBDjson ∈ s then s
  else delA (addA (addA (addA (addA s Artifact.pfamDir) Artifact.hmmFiles)
    Artifact.hmmDB) Artifact.pfamDBDjson) Artifact.cisbpZip

/-- `_download_JASPAR_profiles` (`get_files.py` lines 265-295): guarded by
the taxon directory; creates it and fills it with the downloaded and
unzipped profile files (the zip archives are removed again). -/
def _download_JASPAR_profiles (taxon : String) (s : FS) : FS :=
  if Artifact.taxonDir taxon ∈ s then s
  else addA (addA s (Artifact.taxonDir taxon)) (Artifact.profileFiles taxon)

/-- `_get_profile_info` control flow (`get_files.py` lines 299-334):
guarded by `taxon.profiles.json`, which it writes. -/
def _get_profile_info_stage (taxon : String) (s : FS) : FS :=
  if Artifact.profilesJson taxon ∈ s then s
  else addA s (Artifact.profilesJson taxon)

/-- `_download_UniProt_sequences` control flow (`get_files.py` lines
374-443): two successive guards, `.taxon.uniaccs.pickle` and
`taxon.uniprot.json`, each writing its artifact when absent. -/
def _download_UniProt_sequences_stage (taxon : String) (s : FS) : FS :=
  if Artifact.uniprotJson taxon ∈
      (if Artifact.uniaccsPickle taxon ∈ s then s
       else addA s (Artifact.uniaccsPickle taxon)) then
    (if Artifact.uniaccsPickle taxon ∈ s then s
     else addA s (Artifact.uniaccsPickle taxon))
  else addA
    (if Artifact.uniaccsPickle taxon ∈ s then s
     else addA s (Artifact.uniaccsPickle taxon)) (Artifact.uniprotJson taxon)

/-- `_format_BLAST_database` (`get_files.py` lines 445-463): guarded by the
taxon FASTA file; writes it and the BLAST+ database files. -/
def _format_BLAST_database (taxon : String) (s : FS) : FS :=
  if Artifact.fastaFile taxon ∈ s then s
  else addA (addA s (Artifact.fastaFile taxon)) (Artifact.blastDB taxon)

/-- `_get_Pfam_alignments` control flow (`get_files.py` lines 465-521):
guarded by `taxon.pfam.json`, which it writes (the temporary `.seq.fasta`
is removed at line 517). -/
def _get_Pfam_alignments_stage (taxon : String) (s : FS) : FS :=
  if Artifact.pfamJson taxon ∈ s then s
  else addA s (Artifact.pfamJson taxon)

/-- `_group_by_DBD_composition` control flow (`get_files.py` lines
523-574): guarded by `groups.DBDs.json.gz`, which it writes (the
uncompressed temporary is removed again). -/
def _group_by_DBD_composition_stage (s : FS) : FS :=
  if Artifact.groupsDBDs ∈ s then s
  else addA s Artifact.groupsDBDs

/-- `_group_by_Tomtom` control flow (`get_files.py` lines 576-645): guarded
by `groups.tomtom.json.gz`; the body builds `jaspar.meme` (if absent), runs
the Tomtom comparisons (whose `.MAxxxx.v` output directories are removed
again at line 623), writes the artifact, and then removes every taxon
directory (lines 637-642), including the profile files inside it. -/
def _group_by_Tomtom_stage (taxons : List String) (s : FS) : FS :=
  if Artifact.groupsTomtom ∈ s then s
  else
    taxons.foldl
      (fun s t => delA (delA s (Artifact.taxonDir t)) (Artifact.profileFiles t))
      (addA (addA s Artifact.jasparMeme) Artifact.groupsTomtom)

/-- `train_models` control flow (`regression.py` lines 59-65 and 249-251):
guarded by `models.pickle`.  The body never reaches the final
`pickle.dump`: lines 199-200 are a Python IndentationError, so the module
cannot even be loaded, and the debug `exit(0)` calls at lines 211 and 216
precede the write; the body therefore writes nothing. -/
def train_models_stage (s : FS) : FS :=
  if Artifact.modelsPickle ∈ s then s else s

/-- One taxon iteration of `get_files` (`get_files.py` lines 93-109). -/
def taxonStages (t : String) (s : FS) : FS :=
  _get_Pfam_alignments_stage t
    (_format_BLAST_database t
      (_download_UniProt_sequences_stage t
        (_get_profile_info_stage t
          (_download_JASPAR_profiles t s))))

/-- `get_files` (`get_files.py` lines 64-115): the full pipeline over the
taxa of `Jglobals.taxons` (the list lives in the package `__init__`, not in
the two source files, so it is a parameter here). -/
def get_files (taxons : List String) (s : FS) : FS :=
  _group_by_Tomtom_stage taxons
    (_group_by_DBD_composition_stage
      (taxons.foldl (fun s t => taxonStages t s) (_download_Pfam_DBD_HMMs s)))

/-- C2 (amended): every stage is individually idempotent via its
skip-if-output-exists guard — with its cache artifact(s) present, each
stage leaves the file-system state unchanged.  (The whole-pipeline
conclusion of the claim fails; see the counterexample.) -/
theorem stage_guards_idempotent :
    (∀ s, Artifact.pfamDBDjson ∈ s → _download_Pfam_DBD_HMMs s = s) ∧
    (∀ s t, Artifact.taxonDir t ∈ s → _download_JASPAR_profiles t s = s) ∧
    (∀ s t, Artifact.profilesJson t ∈ s → _get_profile_info_stage t s = s) ∧
    (∀ s t, Artifact.uniaccsPickle t ∈ s → Artifact.uniprotJson t ∈ s →
      _download_UniProt_sequences_stage t s = s) ∧
    (∀ s t, Artifact.fastaFile t ∈ s → _format_BLAST_database t s = s) ∧
    (∀ s t, Artifact.pfamJson t ∈ s → _get_Pfam_alignments_stage t s = s) ∧
    (∀ s, Artifact.groupsDBDs ∈ s → _group_by_DBD_composition_stage s = s) ∧
    (∀ s ts, Artifact.groupsTomtom ∈ s → _group_by_Tomtom_stage ts s = s) ∧
    (∀ s, train_models_stage s = s) := by
  refine ⟨?_, ?_, ?_, ?_, ?_, ?_, ?_, ?_, ?_⟩
  · intro s h
    unfold _download_Pfam_DBD_HMMs
    rw [if_pos h]
  · intro s t h
    unfold _download_JASPAR_profiles
    rw [if_pos h]
  · intro s t h
    unfold _get_profile_info_stage
    rw [if_pos h]
  · intro s t h1 h2
    unfold _download_UniProt_sequences_stage
    rw [if_pos h1, if_pos h2]
  · intro s t h
    unfold _format_BLAST_database
    rw [if_pos h]
  · intro s t h
    unfold _get_Pfam_alignments_stage
    rw [if_pos h]
  · intro s h
    unfold _group_by_DBD_composition_stage
    rw [if_pos h]
  · intro s ts h
    unfold _group_by_Tomtom_stage
    rw [if_pos h]
  · intro s
    unfold train_models_stage
    split <;> rfl

/-- Witness for the amended C2 at concrete states. -/
theorem stage_guards_idempotent_witness :
    (Artifact.pfamDBDjson ∈ [Artifact.pfamDBDjson] ∧
      Artifact.groupsTomtom ∈ [Artifact.groupsTomtom] ∧
      Artifact.uniaccsPickle "v" ∈ [Artifact.uniaccsPickle "v", Artifact.uniprotJson "v"] ∧
      Artifact.uniprotJson "v" ∈ [Artifact.uniaccsPickle "v", Artifact.uniprotJson "v"]) ∧
    _download_Pfam_DBD_HMMs [Artifact.pfamDBDjson] = [Artifact.pfamDBDjson] ∧
    _group_by_Tomtom_stage ["v"] [Artifact.groupsTomtom] = [Artifact.groupsTomtom] ∧
    _download_UniProt_sequences_stage "v"
        [Artifact.uniaccsPickle "v", Artifact.uniprotJson "v"]
      = [Artifact.uniaccsPickle "v", Artifact.uniprotJson "v"] :=
  ⟨⟨by decide, by decide, by decide, by decide⟩,
    stage_guards_idempotent.1 [Artifact.pfamDBDjson] (by decide),
    stage_guards_idempotent.2.2.2.2.2.2.2.1 [Artifact.groupsTomtom] ["v"] (by decide),
    stage_guards_idempotent.2.2.2.1 [Artifact.uniaccsPickle "v", Artifact.uniprotJson "v"]
      "v" (by decide) (by decide)⟩

/-- C2 counterexample: running the whole pipeline a second time is not a
no-op.  After the first run the Tomtom grouping stage has removed the taxon
directory, so the second run re-executes the JASPAR profile downloader and
recreates the taxon directory and its profile files — the output tree
changes. -/
theorem pipeline_second_run_counterexample :
    Artifact.taxonDir "vertebrates" ∉ get_files ["vertebrates"] [] ∧
    Artifact.taxonDir "vertebrates" ∈
      get_files ["vertebrates"] (get_files ["vertebrates"] []) ∧
    get_files ["vertebrates"] (get_files ["vertebrates"] []) ≠
      get_files ["vertebrates"] [] := by decide

/-! ## The regression trainer (`train_models`) -/

/-- Modelled control flow of `train_models` (`regression.py` lines 59-251)
over the DBD-composition keys of the pairwise pickle, with the indentation
of line 200 repaired to read as the body of the `if` on line 199 (as
written, lines 199-200 are a Python IndentationError and the module cannot
run at all).  Every composition other than `"Sox"` is skipped by the
`continue` at line 95 before any model is fitted or recorded; for `"Sox"`
the loop body reaches the debug `exit(0)` at line 211 (or at line 216 when
the cross-validation iterator is empty) before `models.pickle` is written.
`none` models the process exiting before the write; `some keys` models
writing `models.pickle` whose per-composition keys are `keys`. -/
def train_models_outcome (domainKeys : List String) : Option (List String) :=
  if domainKeys.contains "Sox" then none else some []

/-- C3 evaluation at the failing input: on a pairwise pickle with
compositions `Sox` and `AP2`, the process exits before writing
`models.pickle`; on one with only `AP2`, `models.pickle` is written but
contains no fitted model or diagnostics for any composition. -/
theorem train_models_outcome_failing :
    train_models_outcome ["Sox", "AP2"] = none ∧
    train_models_outcome ["AP2"] = some [] := by decide
